import Mathlib

/-!
Verification of the tegra_swizzle surface module.

The only Rust source file available is src/tegra_swizzle/src/surface.rs.
It drives helper functions from other crate modules (div_round_up,
BlockHeight, block_height_mip0, mip_block_height, block_depth,
swizzled_mip_size, deswizzled_mip_size, align_layer_size, swizzle_inner,
SwizzleError).  Those helpers are modelled from the specification and are
marked as such in their doc comments.  Everything in surface.rs itself
(BlockDim, swizzle_surface, deswizzle_surface, swizzle_surface_inner,
swizzle_mipmap) is translated directly from the source.

Byte buffers are modelled as List Nat and the two u8 slices of the Rust
code become source and result lists.  Overflow of usize arithmetic is not
modelled: all the quantities involved are sizes of real buffers.
-/

set_option maxHeartbeats 2000000
set_option maxRecDepth 4000
set_option linter.unusedVariables false

namespace TegraSwizzle

/-- Modelled from the spec (section 4.1, missing crate module lib.rs):
integer division rounding up. -/
def div_round_up (a b : Nat) : Nat := (a + b - 1) / b

/-- Align x up to the next multiple of q, expressed with div_round_up as in
the spec (section 4.3). -/
def align_up (x q : Nat) : Nat := div_round_up x q * q

/-- Modelled from the spec (section 3, missing crate module lib.rs):
the block height in GOBs, one of 1, 2, 4, 8, 16, 32. -/
inductive BlockHeight
  | one
  | two
  | four
  | eight
  | sixteen
  | thirtyTwo
  deriving DecidableEq

/-- Numeric value of a block height. -/
def BlockHeight.toNat : BlockHeight → Nat
  | .one => 1
  | .two => 2
  | .four => 4
  | .eight => 8
  | .sixteen => 16
  | .thirtyTwo => 32

/-- Modelled from the spec (section 7, missing crate module lib.rs):
the error type of the library. -/
inductive SwizzleError
  | NotEnoughData (expected_size actual_size : Nat)
  | InvalidBlockHeight (v : Nat)
  deriving DecidableEq

/-- Dimensions of a compressed block, from surface.rs.  The Rust fields are
NonZeroUsize; here they are Nat and theorems carry positivity hypotheses
where they matter. -/
structure BlockDim where
  width : Nat
  height : Nat
  depth : Nat
  deriving DecidableEq

/-- A 1x1x1 block for formats without block compression, from surface.rs. -/
def BlockDim.uncompressed : BlockDim := ⟨1, 1, 1⟩

/-- A 4x4x1 compressed block, from surface.rs. -/
def BlockDim.block_4x4 : BlockDim := ⟨4, 4, 1⟩

/-- Modelled from the spec (section 4.2, missing crate module lib.rs):
mip 0 block height inference.  The argument is the mip 0 height in
compression blocks; gob_rows counts GOB rows of 8; the result is the
largest power of two below it, with automatic selection capped at 16. -/
def block_height_mip0 (heightInBlocks : Nat) : BlockHeight :=
  let gobRows := div_round_up heightInBlocks 8
  if 16 ≤ gobRows then .sixteen
  else if 8 ≤ gobRows then .eight
  else if 4 ≤ gobRows then .four
  else if 2 ≤ gobRows then .two
  else .one

/-- Modelled from the spec (section 4.2, missing crate module lib.rs):
repeatedly halve the block height while the block covers at least twice
the mip height, stopping at 1.  The loop keeps halving at the equality
boundary, so it stops only once the block of GOBs is strictly less than
twice as tall as the mip: this strict stop condition is the one pinned by
the concrete scenario lengths of spec section 8 and by the length tests
inside surface.rs, and it is equivalent to halving while
div_round_up mipHeight 8 is at most half the block height.  The fuel
argument is the starting block height itself: every halving step strictly
decreases the height, so the fuel can never run out before the loop
stops. -/
def halveUntilFuel : Nat → Nat → Nat → Nat
  | 0, _, _ => 1
  | fuel + 1, mipHeight, bh =>
    if bh ≤ 1 then 1
    else if bh * 8 < 2 * mipHeight then bh
    else halveUntilFuel fuel mipHeight (bh / 2)

/-- Entry point of the per mip block height halving loop. -/
def halveUntil (mipHeight bh : Nat) : Nat := halveUntilFuel bh mipHeight bh

/-- Modelled from the spec (section 4.2, missing crate module lib.rs):
per mip block height, derived from the mip height in blocks and the mip 0
block height, with the halving boundary fixed by the section 8 scenario
lengths and the surface.rs length tests. -/
def mip_block_height (mipHeight : Nat) (blockHeightMip0 : BlockHeight) : Nat :=
  halveUntil mipHeight blockHeightMip0.toNat

/-- Modelled from the spec (section 4.2, missing crate module blockdepth.rs):
block depth selected from the mip depth by the same power of two ladder,
with maximum 32.  A GOB is one slice deep, so the GOB count along z is the
depth itself. -/
def block_depth (depth : Nat) : Nat :=
  if 32 ≤ depth then 32
  else if 16 ≤ depth then 16
  else if 8 ≤ depth then 8
  else if 4 ≤ depth then 4
  else if 2 ≤ depth then 2
  else 1

/-- Modelled from the spec (section 4.3, missing crate module lib.rs):
size in bytes of one swizzled mip level. -/
def swizzled_mip_size (width height depth bh bytes_per_pixel : Nat) : Nat :=
  align_up (width * bytes_per_pixel) 64 * align_up height (8 * bh)
    * align_up depth (block_depth depth)

/-- Modelled from the spec (section 4.3, missing crate module lib.rs):
size in bytes of one linear mip level, tightly packed. -/
def deswizzled_mip_size (width height depth bytes_per_pixel : Nat) : Nat :=
  width * height * depth * bytes_per_pixel

/-- Modelled from the spec (sections 3 and 4.6, missing crate module
arrays.rs): align a layer size up to the layer alignment multiple derived
from the mip 0 block height.  The quantum is one block of GOBs: GOB size
512 times the mip 0 block height times the depth in GOBs.  The height and
depth arguments of the Rust signature do not enter the modelled
computation; the section 4.6 product formula contradicts the concrete
scenarios of section 8, while this reading reproduces them. -/
def align_layer_size (layerSize height depth : Nat) (blockHeightMip0 : BlockHeight)
    (depthInGobs : Nat) : Nat :=
  align_up layerSize (512 * blockHeightMip0.toNat * depthInGobs)

/-- Modelled from the spec (section 4.4, missing crate module swizzle.rs):
byte offset inside one 512 byte GOB for x in 0..64 and y in 0..8.  The
inline bit expression printed in section 4.4 collides two pairs of bits
and cannot be the bijection the spec asserts; the spec states it is
equivalent to the canonical Fermi and Maxwell GOB interleave, which is
what is used here: bits 0 to 3 of x stay, bit 4 of x moves to bit 5,
bit 5 of x moves to bit 8, bit 0 of y moves to bit 4, bits 1 and 2 of y
move to bits 6 and 7. -/
def gob_offset (x y : Nat) : Nat :=
  ((x &&& 0x20) <<< 3) ||| ((y &&& 0x06) <<< 5) ||| ((x &&& 0x10) <<< 1)
    ||| ((y &&& 0x01) <<< 4) ||| (x &&& 0x0F)

/-- Inverse of gob_offset on the x coordinate. -/
def gob_offset_x (o : Nat) : Nat :=
  (o &&& 0x0F) ||| ((o >>> 1) &&& 0x10) ||| ((o >>> 3) &&& 0x20)

/-- Inverse of gob_offset on the y coordinate. -/
def gob_offset_y (o : Nat) : Nat :=
  ((o >>> 4) &&& 0x01) ||| ((o >>> 5) &&& 0x06)

theorem gob_offset_lt : ∀ x < 64, ∀ y < 8, gob_offset x y < 512 := by decide

theorem gob_offset_leftInv :
    ∀ x < 64, ∀ y < 8,
      gob_offset_x (gob_offset x y) = x ∧ gob_offset_y (gob_offset x y) = y := by
  decide

theorem gob_offset_inj {x y x' y' : Nat} (hx : x < 64) (hy : y < 8)
    (hx' : x' < 64) (hy' : y' < 8) (h : gob_offset x y = gob_offset x' y') :
    x = x' ∧ y = y' := by
  have h1 := gob_offset_leftInv x hx y hy
  have h2 := gob_offset_leftInv x' hx' y' hy'
  rw [h] at h1
  exact ⟨h1.1.symm.trans h2.1, h1.2.symm.trans h2.2⟩

/-- Modelled from the spec (section 4.4, missing crate module swizzle.rs):
the block linear address of the byte at byte column x, row y, slice z in a
mip whose padded row length in bytes is padW and padded height in rows is
padH, with block height bh and block depth bd in GOBs. -/
def swizzle_address (x y z bh bd padW padH : Nat) : Nat :=
  let blockX := x / 64
  let blockY := y / (8 * bh)
  let blockZ := z / bd
  let gobYinBlock := (y / 8) % bh
  let gobZinBlock := z % bd
  let blockStride := 512 * bh * bd
  let rowStride := (padW / 64) * blockStride
  let sliceStride := rowStride * (padH / (8 * bh))
  blockZ * sliceStride + blockY * rowStride + blockX * blockStride
    + gobZinBlock * (bh * 512) + gobYinBlock * 512 + gob_offset (x % 64) (y % 8)

/-- Linear byte index decomposition: byte column inside the row.  The row
length in bytes is rowBytes. -/
def lin_x (i rowBytes : Nat) : Nat := i % rowBytes

/-- Linear byte index decomposition: row inside the slice. -/
def lin_y (i rowBytes height : Nat) : Nat := (i / rowBytes) % height

/-- Linear byte index decomposition: slice. -/
def lin_z (i rowBytes height : Nat) : Nat := i / (rowBytes * height)

/-- Address of linear byte i of a mip with the given dimensions, after the
spec (sections 4.4 and 4.5): decompose i by the linear layout and apply the
block linear address transform. -/
def linear_address (w h bh bd bpp i : Nat) : Nat :=
  swizzle_address (lin_x i (w * bpp)) (lin_y i (w * bpp) h) (lin_z i (w * bpp) h)
    bh bd (align_up (w * bpp) 64) (align_up h (8 * bh))

/-- Modelled from the spec (section 4.5, missing crate module swizzle.rs):
copy all bytes of one mip level between the linear and the swizzled layout.
For every linear address i below the linear size, the swizzle direction
writes source byte i to the swizzled address inside dst, and the deswizzle
direction writes the byte at the swizzled address of source to position i
of dst. -/
def swizzle_inner (deswizzle : Bool) (width height depth : Nat)
    (source dst : List Nat) (bh bd bpp : Nat) : List Nat :=
  (List.range (width * height * depth * bpp)).foldl
    (fun acc i =>
      if deswizzle then
        acc.set i (source.getD (linear_address width height bh bd bpp i) 0)
      else
        acc.set (linear_address width height bh bd bpp i) (source.getD i 0))
    dst

/-- Translation of swizzle_mipmap from surface.rs.  The result list plays
the role of the result vector, srcOffset the role of the src_offset
reference; the returned pair carries both updated values.  The Rust code
resizes the result vector with zeroes before the length check; on the
error path the grown vector is discarded by the caller, so performing the
check first is unobservable. -/
def swizzle_mipmap (deswizzle : Bool) (width height depth bh bpp : Nat)
    (source result : List Nat) (srcOffset : Nat) :
    Except SwizzleError (List Nat × Nat) :=
  let swizzledSize := swizzled_mip_size width height depth bh bpp
  let deswizzledSize := deswizzled_mip_size width height depth bpp
  let addedSize := if deswizzle then deswizzledSize else swizzledSize
  if deswizzle ∧ source.length < srcOffset + swizzledSize then
    .error (.NotEnoughData 0 source.length)
  else if ¬deswizzle ∧ source.length < srcOffset + deswizzledSize then
    .error (.NotEnoughData 0 source.length)
  else
    let bd := block_depth depth
    let written := swizzle_inner deswizzle width height depth
      (source.drop srcOffset) (List.replicate addedSize 0) bh bd bpp
    .ok (result ++ written,
      srcOffset + if deswizzle then swizzledSize else deswizzledSize)

/-- Mip level dimension as computed inside swizzle_surface_inner in
surface.rs: the base dimension shifted right by the mip index, divided
rounding up by the block dimension axis, floored at 1. -/
def mip_dim (dim blockDimAxis mip : Nat) : Nat :=
  max (div_round_up (dim >>> mip) blockDimAxis) 1

/-- Mip 0 block height selection as written in swizzle_surface_inner in
surface.rs: inferred from the height only when depth is 1, otherwise
forced to one. -/
def chooseBlockHeightMip0 (depth height blockDimHeight : Nat)
    (blockHeightMip0 : Option BlockHeight) : BlockHeight :=
  if depth = 1 then
    blockHeightMip0.getD (block_height_mip0 (div_round_up height blockDimHeight))
  else
    .one

/-- Layer alignment closure from swizzle_surface_inner in surface.rs. -/
def align_to_layer (height blockDimHeight : Nat) (bh0 : BlockHeight) (x : Nat) : Nat :=
  align_layer_size x (max (div_round_up height blockDimHeight) 1) 1 bh0 1

/-- Inner mip loop of swizzle_surface_inner from surface.rs, recursion on
the number of remaining mip levels with the current mip index carried
along. -/
def goMips (deswizzle : Bool) (width height depth bw bhDim bdDim bh0 bpp : Nat)
    (source : List Nat) :
    Nat → Nat → List Nat → Nat → Except SwizzleError (List Nat × Nat)
  | _, 0, result, srcOffset => .ok (result, srcOffset)
  | mip, fuel + 1, result, srcOffset =>
    match swizzle_mipmap deswizzle (mip_dim width bw mip) (mip_dim height bhDim mip)
        (mip_dim depth bdDim mip)
        (halveUntil (mip_dim height bhDim mip) bh0) bpp source result srcOffset with
    | .error e => .error e
    | .ok rs =>
      goMips deswizzle width height depth bw bhDim bdDim bh0 bpp source
        (mip + 1) fuel rs.1 rs.2

/-- Outer layer loop of swizzle_surface_inner from surface.rs, recursion on
the number of remaining layers.  The total array count ac is carried
separately because the alignment is guarded by the total count. -/
def goLayers (deswizzle : Bool) (width height depth bw bhDim bdDim : Nat)
    (bh0 : BlockHeight) (bpp mc ac : Nat) (source : List Nat) :
    Nat → List Nat → Nat → Except SwizzleError (List Nat)
  | 0, result, _ => .ok result
  | layers + 1, result, srcOffset =>
    match goMips deswizzle width height depth bw bhDim bdDim bh0.toNat bpp source
        0 mc result srcOffset with
    | .error e => .error e
    | .ok rs =>
      if 1 < ac then
        if deswizzle then
          goLayers deswizzle width height depth bw bhDim bdDim bh0 bpp mc ac source
            layers rs.1 (align_to_layer height bhDim bh0 rs.2)
        else
          goLayers deswizzle width height depth bw bhDim bdDim bh0 bpp mc ac source
            layers
            (rs.1 ++ List.replicate (align_to_layer height bhDim bh0 rs.1.length
              - rs.1.length) 0)
            rs.2
      else
        goLayers deswizzle width height depth bw bhDim bdDim bh0 bpp mc ac source
          layers rs.1 rs.2

/-- Translation of swizzle_surface_inner from surface.rs.  The capacity
reservation of the Rust code only affects allocation and is not modelled. -/
def swizzle_surface_inner (deswizzle : Bool) (width height depth : Nat)
    (source : List Nat) (block_dim : BlockDim) (blockHeightMip0 : Option BlockHeight)
    (bytes_per_pixel mipmap_count array_count : Nat) :
    Except SwizzleError (List Nat) :=
  let bh0 := chooseBlockHeightMip0 depth height block_dim.height blockHeightMip0
  goLayers deswizzle width height depth block_dim.width block_dim.height
    block_dim.depth bh0 bytes_per_pixel mipmap_count array_count source
    array_count [] 0

/-- Translation of swizzle_surface from surface.rs. -/
def swizzle_surface (width height depth : Nat) (source : List Nat)
    (block_dim : BlockDim) (blockHeightMip0 : Option BlockHeight)
    (bytes_per_pixel mipmap_count array_count : Nat) :
    Except SwizzleError (List Nat) :=
  swizzle_surface_inner false width height depth source block_dim blockHeightMip0
    bytes_per_pixel mipmap_count array_count

/-- Translation of deswizzle_surface from surface.rs. -/
def deswizzle_surface (width height depth : Nat) (source : List Nat)
    (block_dim : BlockDim) (blockHeightMip0 : Option BlockHeight)
    (bytes_per_pixel mipmap_count array_count : Nat) :
    Except SwizzleError (List Nat) :=
  swizzle_surface_inner true width height depth source block_dim blockHeightMip0
    bytes_per_pixel mipmap_count array_count

/-! Arithmetic helper lemmas. -/

theorem BlockHeight.toNat_pos (b : BlockHeight) : 0 < b.toNat := by
  cases b <;> simp [BlockHeight.toNat]

theorem block_depth_pos (d : Nat) : 0 < block_depth d := by
  unfold block_depth
  repeat' split
  all_goals omega

theorem halveUntilFuel_pos : ∀ fuel h bh, 0 < halveUntilFuel fuel h bh := by
  intro fuel
  induction fuel with
  | zero => intro h bh; exact Nat.one_pos
  | succ fuel ih =>
    intro h bh
    rw [halveUntilFuel]
    split
    · omega
    · split
      · omega
      · exact ih h (bh / 2)

theorem halveUntil_pos (bh : Nat) : ∀ h, 0 < halveUntil h bh := fun h =>
  halveUntilFuel_pos bh h bh

theorem le_align_up (x : Nat) {q : Nat} (hq : 0 < q) : x ≤ align_up x q := by
  have h1 := Nat.div_add_mod (x + q - 1) q
  have h2 : (x + q - 1) % q < q := Nat.mod_lt _ hq
  unfold align_up div_round_up
  rw [Nat.mul_comm]
  omega

theorem align_up_dvd (x q : Nat) : q ∣ align_up x q :=
  ⟨div_round_up x q, Nat.mul_comm _ _⟩

theorem align_up_add_of_dvd {q : Nat} (hq : 0 < q) {x : Nat} (hd : q ∣ x) (s : Nat) :
    align_up (x + s) q = x + align_up s q := by
  obtain ⟨k, rfl⟩ := hd
  unfold align_up div_round_up
  have h : q * k + s + q - 1 = q * k + (s + q - 1) := by omega
  rw [h, Nat.mul_add_div hq]
  ring

theorem align_up_zero {q : Nat} : align_up 0 q = 0 := by
  unfold align_up div_round_up
  rcases Nat.eq_zero_or_pos q with h | h
  · simp [h]
  · rw [Nat.div_eq_of_lt (by omega)]
    simp

/-- Mixed radix bound: a digit below A with a remainder below the weight K. -/
theorem mr_lt {a A r K : Nat} (ha : a < A) (hr : r < K) : a * K + r < A * K :=
  calc a * K + r < a * K + K := by omega
    _ = (a + 1) * K := by ring
    _ ≤ A * K := Nat.mul_le_mul_right _ ha

/-- Mixed radix uniqueness: digit and remainder are determined. -/
theorem mr_unique {a a' r r' K : Nat} (hr : r < K) (hr' : r' < K)
    (h : a * K + r = a' * K + r') : a = a' ∧ r = r' := by
  have hK : 0 < K := by omega
  have h1 : (a * K + r) / K = a := by
    rw [Nat.mul_comm a K, Nat.mul_add_div hK, Nat.div_eq_of_lt hr]
    omega
  have h2 : (a' * K + r') / K = a' := by
    rw [Nat.mul_comm a' K, Nat.mul_add_div hK, Nat.div_eq_of_lt hr']
    omega
  rw [h] at h1
  rw [h2] at h1
  constructor
  · exact h1.symm
  · subst h1
    omega

/-! Bound and injectivity of the block linear address transform. -/

theorem swizzle_address_decompose (x y z bh bd w1 h1 : Nat) (hbh : 0 < bh)
    (hbd : 0 < bd) :
    swizzle_address x y z bh bd (64 * w1) (8 * bh * h1) =
      (z / bd * h1 + y / (8 * bh)) * (w1 * (512 * bh * bd))
        + (x / 64 * (512 * bh * bd)
          + (z % bd * (bh * 512)
            + ((y / 8 % bh) * 512 + gob_offset (x % 64) (y % 8)))) := by
  have e1 : 64 * w1 / 64 = w1 := Nat.mul_div_cancel_left _ (by omega)
  have e2 : 8 * bh * h1 / (8 * bh) = h1 := Nat.mul_div_cancel_left _ (by positivity)
  simp only [swizzle_address, e1, e2]
  ring

theorem swizzle_address_lt {bh bd padW padH padD x y z : Nat}
    (hbh : 0 < bh) (hbd : 0 < bd)
    (hW : 64 ∣ padW) (hH : 8 * bh ∣ padH) (hD : bd ∣ padD)
    (hx : x < padW) (hy : y < padH) (hz : z < padD) :
    swizzle_address x y z bh bd padW padH < padW * padH * padD := by
  obtain ⟨w1, rfl⟩ := hW
  obtain ⟨h1, rfl⟩ := hH
  obtain ⟨d1, rfl⟩ := hD
  rw [swizzle_address_decompose x y z bh bd w1 h1 hbh hbd]
  have hg : gob_offset (x % 64) (y % 8) < 512 :=
    gob_offset_lt _ (Nat.mod_lt _ (by omega)) _ (Nat.mod_lt _ (by omega))
  have h2 : (y / 8 % bh) * 512 + gob_offset (x % 64) (y % 8) < bh * 512 :=
    mr_lt (Nat.mod_lt _ hbh) hg
  have h3 : z % bd * (bh * 512) + ((y / 8 % bh) * 512 + gob_offset (x % 64) (y % 8))
      < 512 * bh * bd := by
    have := mr_lt (Nat.mod_lt z hbd) h2
    calc z % bd * (bh * 512) + ((y / 8 % bh) * 512 + gob_offset (x % 64) (y % 8))
        < bd * (bh * 512) := this
      _ = 512 * bh * bd := by ring
  have hx64 : x / 64 < w1 := by
    have h := Nat.div_lt_div_of_lt_of_dvd (⟨w1, rfl⟩ : (64 : Nat) ∣ 64 * w1) hx
    rwa [Nat.mul_div_cancel_left _ (by omega : (0 : Nat) < 64)] at h
  have hyh : y / (8 * bh) < h1 := by
    have h := Nat.div_lt_div_of_lt_of_dvd (⟨h1, rfl⟩ : 8 * bh ∣ 8 * bh * h1) hy
    rwa [Nat.mul_div_cancel_left _ (by positivity : 0 < 8 * bh)] at h
  have hzd : z / bd < d1 := by
    have h := Nat.div_lt_div_of_lt_of_dvd (⟨d1, rfl⟩ : bd ∣ bd * d1) hz
    rwa [Nat.mul_div_cancel_left _ hbd] at h
  have h4 : x / 64 * (512 * bh * bd)
      + (z % bd * (bh * 512) + ((y / 8 % bh) * 512 + gob_offset (x % 64) (y % 8)))
      < w1 * (512 * bh * bd) := mr_lt hx64 h3
  have h5 : z / bd * h1 + y / (8 * bh) < d1 * h1 := mr_lt hzd hyh
  have h6 := mr_lt h5 h4
  calc (z / bd * h1 + y / (8 * bh)) * (w1 * (512 * bh * bd))
        + (x / 64 * (512 * bh * bd)
          + (z % bd * (bh * 512)
            + ((y / 8 % bh) * 512 + gob_offset (x % 64) (y % 8))))
      < d1 * h1 * (w1 * (512 * bh * bd)) := h6
    _ = 64 * w1 * (8 * bh * h1) * (bd * d1) := by ring

theorem swizzle_address_inj {bh bd padW padH padD x y z x' y' z' : Nat}
    (hbh : 0 < bh) (hbd : 0 < bd)
    (hW : 64 ∣ padW) (hH : 8 * bh ∣ padH) (hD : bd ∣ padD)
    (hx : x < padW) (hy : y < padH) (hz : z < padD)
    (hx' : x' < padW) (hy' : y' < padH) (hz' : z' < padD)
    (heq : swizzle_address x y z bh bd padW padH
      = swizzle_address x' y' z' bh bd padW padH) :
    x = x' ∧ y = y' ∧ z = z' := by
  obtain ⟨w1, rfl⟩ := hW
  obtain ⟨h1, rfl⟩ := hH
  obtain ⟨d1, rfl⟩ := hD
  rw [swizzle_address_decompose x y z bh bd w1 h1 hbh hbd,
    swizzle_address_decompose x' y' z' bh bd w1 h1 hbh hbd] at heq
  have hg : gob_offset (x % 64) (y % 8) < 512 :=
    gob_offset_lt _ (Nat.mod_lt _ (by omega)) _ (Nat.mod_lt _ (by omega))
  have hg' : gob_offset (x' % 64) (y' % 8) < 512 :=
    gob_offset_lt _ (Nat.mod_lt _ (by omega)) _ (Nat.mod_lt _ (by omega))
  have h2 : (y / 8 % bh) * 512 + gob_offset (x % 64) (y % 8) < bh * 512 :=
    mr_lt (Nat.mod_lt _ hbh) hg
  have h2' : (y' / 8 % bh) * 512 + gob_offset (x' % 64) (y' % 8) < bh * 512 :=
    mr_lt (Nat.mod_lt _ hbh) hg'
  have hbs : bd * (bh * 512) = 512 * bh * bd := by ring
  have h3 : z % bd * (bh * 512) + ((y / 8 % bh) * 512 + gob_offset (x % 64) (y % 8))
      < 512 * bh * bd := by
    have := mr_lt (Nat.mod_lt z hbd) h2
    omega
  have h3' : z' % bd * (bh * 512)
      + ((y' / 8 % bh) * 512 + gob_offset (x' % 64) (y' % 8)) < 512 * bh * bd := by
    have := mr_lt (Nat.mod_lt z' hbd) h2'
    omega
  have hx64 : x / 64 < w1 := by
    have h := Nat.div_lt_div_of_lt_of_dvd (⟨w1, rfl⟩ : (64 : Nat) ∣ 64 * w1) hx
    rwa [Nat.mul_div_cancel_left _ (by omega : (0 : Nat) < 64)] at h
  have hx64' : x' / 64 < w1 := by
    have h := Nat.div_lt_div_of_lt_of_dvd (⟨w1, rfl⟩ : (64 : Nat) ∣ 64 * w1) hx'
    rwa [Nat.mul_div_cancel_left _ (by omega : (0 : Nat) < 64)] at h
  have hyh : y / (8 * bh) < h1 := by
    have h := Nat.div_lt_div_of_lt_of_dvd (⟨h1, rfl⟩ : 8 * bh ∣ 8 * bh * h1) hy
    rwa [Nat.mul_div_cancel_left _ (by positivity : 0 < 8 * bh)] at h
  have hyh' : y' / (8 * bh) < h1 := by
    have h := Nat.div_lt_div_of_lt_of_dvd (⟨h1, rfl⟩ : 8 * bh ∣ 8 * bh * h1) hy'
    rwa [Nat.mul_div_cancel_left _ (by positivity : 0 < 8 * bh)] at h
  have h4 : x / 64 * (512 * bh * bd)
      + (z % bd * (bh * 512) + ((y / 8 % bh) * 512 + gob_offset (x % 64) (y % 8)))
      < w1 * (512 * bh * bd) := mr_lt hx64 h3
  have h4' : x' / 64 * (512 * bh * bd)
      + (z' % bd * (bh * 512)
        + ((y' / 8 % bh) * 512 + gob_offset (x' % 64) (y' % 8)))
      < w1 * (512 * bh * bd) := mr_lt hx64' h3'
  obtain ⟨hq1, hq2⟩ := mr_unique h4 h4' heq
  obtain ⟨hq3, hq4⟩ := mr_unique h3 h3' hq2
  obtain ⟨hq5, hq6⟩ := mr_unique h2 h2' hq4
  obtain ⟨hq7, hq8⟩ := mr_unique hg hg' hq6
  obtain ⟨hgx, hgy⟩ := gob_offset_inj (Nat.mod_lt _ (by omega)) (Nat.mod_lt _ (by omega))
    (Nat.mod_lt _ (by omega)) (Nat.mod_lt _ (by omega)) hq8
  have h512 : (0 : Nat) < 512 * bh * bd := by positivity
  obtain ⟨hq9, hq10⟩ := mr_unique hyh hyh' hq1
  -- reconstruct x
  have hxeq : x = x' := by
    have d1x := Nat.div_add_mod x 64
    have d2x := Nat.div_add_mod x' 64
    omega
  -- reconstruct z
  have hzeq : z = z' := by
    have d1z := Nat.div_add_mod z bd
    have d2z := Nat.div_add_mod z' bd
    have e1 : bd * (z / bd) = bd * (z' / bd) := by rw [hq9]
    omega
  -- reconstruct y
  have hyeq : y = y' := by
    have d1y := Nat.div_add_mod y 8
    have d2y := Nat.div_add_mod y' 8
    have d3y := Nat.div_add_mod (y / 8) bh
    have d4y := Nat.div_add_mod (y' / 8) bh
    rw [Nat.div_div_eq_div_mul] at d3y
    rw [Nat.div_div_eq_div_mul] at d4y
    have e1 : bh * (y / (8 * bh)) = bh * (y' / (8 * bh)) := by rw [hq10]
    omega
  exact ⟨hxeq, hyeq, hzeq⟩

/-! List helper lemmas. -/

theorem getD_set_self (l : List Nat) (i v : Nat) (h : i < l.length) :
    (l.set i v).getD i 0 = v := by
  rw [List.getD_eq_getElem?_getD, List.getElem?_set_self h]
  rfl

theorem getD_set_ne (l : List Nat) {i j : Nat} (v : Nat) (h : i ≠ j) :
    (l.set i v).getD j 0 = l.getD j 0 := by
  rw [List.getD_eq_getElem?_getD, List.getElem?_set_ne h, ← List.getD_eq_getElem?_getD]

theorem foldl_length_invariant (step : List Nat → Nat → List Nat)
    (h : ∀ l i, (step l i).length = l.length) :
    ∀ (idxs : List Nat) (l : List Nat), (idxs.foldl step l).length = l.length := by
  intro idxs
  induction idxs with
  | nil => intro l; rfl
  | cons a t ih => intro l; rw [List.foldl_cons, ih, h]

theorem foldl_set_length (f g : Nat → Nat) (idxs : List Nat) (l : List Nat) :
    (idxs.foldl (fun dst i => dst.set (f i) (g i)) l).length = l.length :=
  foldl_length_invariant _ (fun l i => List.length_set l (f i) (g i)) idxs l

theorem foldl_set_getD (f g : Nat → Nat) (l0 : List Nat) :
    ∀ n : Nat, (∀ a, a < n → ∀ b, b < n → f a = f b → a = b) →
    (∀ a, a < n → f a < l0.length) →
    ∀ j, j < n →
      ((List.range n).foldl (fun dst i => dst.set (f i) (g i)) l0).getD (f j) 0 = g j := by
  intro n
  induction n with
  | zero => intro _ _ j hj; omega
  | succ n ih =>
    intro hinj hb j hj
    rw [List.range_succ, List.foldl_append, List.foldl_cons, List.foldl_nil]
    have hlen := foldl_set_length f g (List.range n) l0
    rcases Nat.lt_succ_iff_lt_or_eq.mp hj with hj' | rfl
    · have hne : f n ≠ f j := fun hfe => by
        have := hinj n (Nat.lt_succ_self n) j (Nat.lt_succ_of_lt hj') hfe
        omega
      rw [getD_set_ne _ _ hne]
      exact ih
        (fun a ha b hb' hfe =>
          hinj a (Nat.lt_succ_of_lt ha) b (Nat.lt_succ_of_lt hb') hfe)
        (fun a ha => hb a (Nat.lt_succ_of_lt ha)) j hj'
    · exact getD_set_self _ _ _ (by rw [hlen]; exact hb j (Nat.lt_succ_self j))

theorem map_getD_range_eq_take (l : List Nat) :
    ∀ n, n ≤ l.length → (List.range n).map (fun i => l.getD i 0) = l.take n := by
  intro n
  induction n with
  | zero => intro _; simp
  | succ n ih =>
    intro h
    have hn : n < l.length := by omega
    rw [List.range_succ, List.map_append, ih (by omega)]
    have hval : (fun i => l.getD i 0) n = l[n] := List.getD_eq_getElem l 0 hn
    rw [List.take_succ, List.getElem?_eq_getElem hn]
    simp only [List.map_cons, List.map_nil, hval]
    rfl

/-! Bound and injectivity of the per mip linear address map. -/

theorem linear_size_factors {w h d bpp i : Nat} (hi : i < w * h * d * bpp) :
    0 < w * bpp ∧ 0 < h ∧ 0 < d := by
  have hw : w * bpp ≠ 0 := by
    intro h0
    have e : w * h * d * bpp = w * bpp * (h * d) := by ring
    rw [e, h0, Nat.zero_mul] at hi
    omega
  have hh : h ≠ 0 := by
    intro h0
    rw [h0, Nat.mul_zero, Nat.zero_mul, Nat.zero_mul] at hi
    omega
  have hd : d ≠ 0 := by
    intro h0
    rw [h0, Nat.mul_zero, Nat.zero_mul] at hi
    omega
  omega

theorem linear_address_lt {w h d bh bd bpp : Nat} (hbh : 0 < bh) (hbd : 0 < bd)
    {i : Nat} (hi : i < w * h * d * bpp) :
    linear_address w h bh bd bpp i
      < align_up (w * bpp) 64 * align_up h (8 * bh) * align_up d bd := by
  obtain ⟨hrow, hh, hd0⟩ := linear_size_factors hi
  unfold linear_address lin_x lin_y lin_z
  apply swizzle_address_lt hbh hbd (align_up_dvd _ _) (align_up_dvd _ _) (align_up_dvd _ _)
  · exact lt_of_lt_of_le (Nat.mod_lt _ hrow) (le_align_up _ (by omega))
  · exact lt_of_lt_of_le (Nat.mod_lt _ hh) (le_align_up _ (by positivity))
  · have hz : i / (w * bpp * h) < d := by
      rw [Nat.div_lt_iff_lt_mul (by positivity)]
      calc i < w * h * d * bpp := hi
        _ = d * (w * bpp * h) := by ring
    exact lt_of_lt_of_le hz (le_align_up _ hbd)

theorem linear_address_inj {w h d bh bd bpp : Nat} (hbh : 0 < bh) (hbd : 0 < bd)
    {i j : Nat} (hi : i < w * h * d * bpp) (hj : j < w * h * d * bpp)
    (he : linear_address w h bh bd bpp i = linear_address w h bh bd bpp j) :
    i = j := by
  obtain ⟨hrow, hh, hd0⟩ := linear_size_factors hi
  unfold linear_address lin_x lin_y lin_z at he
  have hzi : i / (w * bpp * h) < d := by
    rw [Nat.div_lt_iff_lt_mul (by positivity)]
    calc i < w * h * d * bpp := hi
      _ = d * (w * bpp * h) := by ring
  have hzj : j / (w * bpp * h) < d := by
    rw [Nat.div_lt_iff_lt_mul (by positivity)]
    calc j < w * h * d * bpp := hj
      _ = d * (w * bpp * h) := by ring
  obtain ⟨hx, hy, hz⟩ := swizzle_address_inj hbh hbd
    (align_up_dvd _ _) (align_up_dvd _ _) (align_up_dvd (d) (bd))
    (lt_of_lt_of_le (Nat.mod_lt _ hrow) (le_align_up _ (by omega)))
    (lt_of_lt_of_le (Nat.mod_lt _ hh) (le_align_up _ (by positivity)))
    (lt_of_lt_of_le hzi (le_align_up _ hbd))
    (lt_of_lt_of_le (Nat.mod_lt _ hrow) (le_align_up _ (by omega)))
    (lt_of_lt_of_le (Nat.mod_lt _ hh) (le_align_up _ (by positivity)))
    (lt_of_lt_of_le hzj (le_align_up _ hbd))
    he
  have hdiv2 : i / (w * bpp) = j / (w * bpp) := by
    have d3 := Nat.div_add_mod (i / (w * bpp)) h
    have d4 := Nat.div_add_mod (j / (w * bpp)) h
    rw [Nat.div_div_eq_div_mul] at d3
    rw [Nat.div_div_eq_div_mul] at d4
    have e : h * (i / (w * bpp * h)) = h * (j / (w * bpp * h)) := by rw [hz]
    omega
  have e2 : w * bpp * (i / (w * bpp)) = w * bpp * (j / (w * bpp)) := by rw [hdiv2]
  have d1 := Nat.div_add_mod i (w * bpp)
  have d2 := Nat.div_add_mod j (w * bpp)
  omega

/-! Facts about the mip level swizzler. -/

theorem swizzle_inner_length (dsw : Bool) (w h d : Nat) (src dst : List Nat)
    (bh bd bpp : Nat) :
    (swizzle_inner dsw w h d src dst bh bd bpp).length = dst.length := by
  unfold swizzle_inner
  apply foldl_length_invariant
  intro l i
  split <;> rw [List.length_set]

theorem swizzle_inner_swizzle_getD {w h d bh bd bpp : Nat} (hbh : 0 < bh)
    (hbd : 0 < bd) (src dst : List Nat)
    (hdst : ∀ a, a < w * h * d * bpp → linear_address w h bh bd bpp a < dst.length)
    {j : Nat} (hj : j < w * h * d * bpp) :
    (swizzle_inner false w h d src dst bh bd bpp).getD
      (linear_address w h bh bd bpp j) 0 = src.getD j 0 := by
  unfold swizzle_inner
  simp only [Bool.false_eq_true, if_false]
  exact foldl_set_getD (fun i => linear_address w h bh bd bpp i)
    (fun i => src.getD i 0) dst (w * h * d * bpp)
    (fun a ha b hb hfe => linear_address_inj hbh hbd ha hb hfe) hdst j hj

theorem swizzle_inner_deswizzle_getD {w h d bh bd bpp : Nat} (src dst : List Nat)
    {j : Nat} (hj : j < w * h * d * bpp) (hdst : dst.length = w * h * d * bpp) :
    (swizzle_inner true w h d src dst bh bd bpp).getD j 0
      = src.getD (linear_address w h bh bd bpp j) 0 := by
  unfold swizzle_inner
  simp only [if_true]
  exact foldl_set_getD (fun i => i)
    (fun i => src.getD (linear_address w h bh bd bpp i) 0) dst (w * h * d * bpp)
    (fun a _ b _ hfe => hfe) (fun a ha => by show a < dst.length; omega) j hj

/-- Round trip through one mip level: deswizzling the swizzled segment,
with arbitrary extra data appended, recovers the consumed linear bytes. -/
theorem swizzle_inner_roundtrip {w h d bh bd bpp : Nat} (hbh : 0 < bh)
    (hbd : 0 < bd) (src rest : List Nat) (hsrc : w * h * d * bpp ≤ src.length) :
    swizzle_inner true w h d
      (swizzle_inner false w h d src
        (List.replicate (align_up (w * bpp) 64 * align_up h (8 * bh)
          * align_up d bd) 0) bh bd bpp ++ rest)
      (List.replicate (w * h * d * bpp) 0) bh bd bpp
      = src.take (w * h * d * bpp) := by
  have hswzlen : (swizzle_inner false w h d src
      (List.replicate (align_up (w * bpp) 64 * align_up h (8 * bh)
        * align_up d bd) 0) bh bd bpp).length
      = align_up (w * bpp) 64 * align_up h (8 * bh) * align_up d bd := by
    rw [swizzle_inner_length, List.length_replicate]
  apply List.ext_getElem
  · rw [swizzle_inner_length, List.length_replicate, List.length_take]
    omega
  · intro k hk1 hk2
    have hk : k < w * h * d * bpp := by
      rw [swizzle_inner_length, List.length_replicate] at hk1
      exact hk1
    have hlenL : k < (swizzle_inner true w h d
        (swizzle_inner false w h d src
          (List.replicate (align_up (w * bpp) 64 * align_up h (8 * bh)
            * align_up d bd) 0) bh bd bpp ++ rest)
        (List.replicate (w * h * d * bpp) 0) bh bd bpp).length := hk1
    rw [← List.getD_eq_getElem _ 0 hlenL]
    rw [swizzle_inner_deswizzle_getD _ _ hk
      (by rw [List.length_replicate])]
    rw [List.getD_append _ _ _ _ (by
      rw [hswzlen]
      exact linear_address_lt hbh hbd hk)]
    rw [swizzle_inner_swizzle_getD hbh hbd src _
      (fun a ha => by
        rw [List.length_replicate]
        exact linear_address_lt hbh hbd ha) hk]
    rw [List.getElem_take]
    exact List.getD_eq_getElem src 0 (by omega)

/-! Per mip sizes of a surface and their partial sums. -/

/-- Linear size in bytes of mip level mip of the surface. -/
def mipDsize (W H D bw bhD bdD bpp mip : Nat) : Nat :=
  deswizzled_mip_size (mip_dim W bw mip) (mip_dim H bhD mip) (mip_dim D bdD mip) bpp

/-- Swizzled size in bytes of mip level mip of the surface, under the mip 0
block height bh0. -/
def mipSsize (W H D bw bhD bdD bh0 bpp mip : Nat) : Nat :=
  swizzled_mip_size (mip_dim W bw mip) (mip_dim H bhD mip) (mip_dim D bdD mip)
    (halveUntil (mip_dim H bhD mip) bh0) bpp

/-- Sum of linear mip sizes for fuel mips starting at index mip. -/
def sumDsize (W H D bw bhD bdD bpp : Nat) : Nat → Nat → Nat
  | _, 0 => 0
  | mip, fuel + 1 =>
    mipDsize W H D bw bhD bdD bpp mip
      + sumDsize W H D bw bhD bdD bpp (mip + 1) fuel

/-- Sum of swizzled mip sizes for fuel mips starting at index mip. -/
def sumSsize (W H D bw bhD bdD bh0 bpp : Nat) : Nat → Nat → Nat
  | _, 0 => 0
  | mip, fuel + 1 =>
    mipSsize W H D bw bhD bdD bh0 bpp mip
      + sumSsize W H D bw bhD bdD bh0 bpp (mip + 1) fuel

/-! Case analysis lemmas for swizzle_mipmap. -/

theorem swizzle_mipmap_false_ok {w h d bh bpp : Nat} (src res : List Nat)
    {off : Nat} (hok : off + deswizzled_mip_size w h d bpp ≤ src.length) :
    swizzle_mipmap false w h d bh bpp src res off
      = .ok (res ++ swizzle_inner false w h d (src.drop off)
          (List.replicate (swizzled_mip_size w h d bh bpp) 0) bh
          (block_depth d) bpp,
        off + deswizzled_mip_size w h d bpp) := by
  unfold swizzle_mipmap
  simp only [Bool.false_eq_true, false_and, if_false, not_false_eq_true, true_and,
    if_neg (by omega : ¬ src.length < off + deswizzled_mip_size w h d bpp)]

theorem swizzle_mipmap_false_err {w h d bh bpp : Nat} (src res : List Nat)
    {off : Nat} (hlt : src.length < off + deswizzled_mip_size w h d bpp) :
    swizzle_mipmap false w h d bh bpp src res off
      = .error (.NotEnoughData 0 src.length) := by
  unfold swizzle_mipmap
  simp only [Bool.false_eq_true, false_and, if_false, not_false_eq_true, true_and,
    if_pos hlt]

theorem swizzle_mipmap_true_ok {w h d bh bpp : Nat} (src res : List Nat)
    {off : Nat} (hok : off + swizzled_mip_size w h d bh bpp ≤ src.length) :
    swizzle_mipmap true w h d bh bpp src res off
      = .ok (res ++ swizzle_inner true w h d (src.drop off)
          (List.replicate (deswizzled_mip_size w h d bpp) 0) bh
          (block_depth d) bpp,
        off + swizzled_mip_size w h d bh bpp) := by
  unfold swizzle_mipmap
  simp only [true_and, not_true_eq_false, false_and, if_false, if_true,
    if_neg (by omega : ¬ src.length < off + swizzled_mip_size w h d bh bpp)]

theorem swizzle_mipmap_true_err {w h d bh bpp : Nat} (src res : List Nat)
    {off : Nat} (hlt : src.length < off + swizzled_mip_size w h d bh bpp) :
    swizzle_mipmap true w h d bh bpp src res off
      = .error (.NotEnoughData 0 src.length) := by
  unfold swizzle_mipmap
  simp only [true_and, if_pos hlt]

theorem swizzle_mipmap_ok_len {dsw : Bool} {w h d bh bpp : Nat}
    {src res : List Nat} {off : Nat} {rs : List Nat × Nat}
    (hm : swizzle_mipmap dsw w h d bh bpp src res off = .ok rs) :
    rs.1.length = res.length
        + (if dsw then deswizzled_mip_size w h d bpp
          else swizzled_mip_size w h d bh bpp)
      ∧ rs.2 = off
        + (if dsw then swizzled_mip_size w h d bh bpp
          else deswizzled_mip_size w h d bpp) := by
  cases dsw
  · simp only [swizzle_mipmap, Bool.false_eq_true, false_and, if_false,
      not_false_eq_true, true_and] at hm
    simp only [Bool.false_eq_true, if_false]
    split at hm
    · exact absurd hm (by simp)
    · injection hm with h'
      subst h'
      refine ⟨?_, rfl⟩
      rw [List.length_append, swizzle_inner_length, List.length_replicate]
  · simp only [swizzle_mipmap, not_true_eq_false, false_and, if_false, true_and,
      if_true] at hm
    simp only [if_true]
    split at hm
    · exact absurd hm (by simp)
    · injection hm with h'
      subst h'
      refine ⟨?_, rfl⟩
      rw [List.length_append, swizzle_inner_length, List.length_replicate]

theorem swizzle_mipmap_err_val {dsw : Bool} {w h d bh bpp : Nat}
    {src res : List Nat} {off : Nat} {e : SwizzleError}
    (hm : swizzle_mipmap dsw w h d bh bpp src res off = .error e) :
    e = .NotEnoughData 0 src.length := by
  cases dsw
  · simp only [swizzle_mipmap, Bool.false_eq_true, false_and, if_false,
      not_false_eq_true, true_and] at hm
    split at hm
    · injection hm with h'
      exact h'.symm
    · exact absurd hm (by simp)
  · simp only [swizzle_mipmap, not_true_eq_false, false_and, if_false, true_and,
      if_true] at hm
    split at hm
    · injection hm with h'
      exact h'.symm
    · exact absurd hm (by simp)

/-! The expected swizzled content of a run of mip levels. -/

/-- Concatenation of the swizzled segments of fuel mip levels starting at
mip index mip, consuming the linear source x from offset linOff. -/
def swizzleMipsSpec (W H D bw bhD bdD bh0 bpp : Nat) (x : List Nat) :
    Nat → Nat → Nat → List Nat
  | _, 0, _ => []
  | mip, fuel + 1, linOff =>
    swizzle_inner false (mip_dim W bw mip) (mip_dim H bhD mip) (mip_dim D bdD mip)
        (x.drop linOff)
        (List.replicate (mipSsize W H D bw bhD bdD bh0 bpp mip) 0)
        (halveUntil (mip_dim H bhD mip) bh0)
        (block_depth (mip_dim D bdD mip)) bpp
      ++ swizzleMipsSpec W H D bw bhD bdD bh0 bpp x (mip + 1) fuel
          (linOff + mipDsize W H D bw bhD bdD bpp mip)

theorem swizzleMipsSpec_length (W H D bw bhD bdD bh0 bpp : Nat) (x : List Nat) :
    ∀ fuel mip linOff,
      (swizzleMipsSpec W H D bw bhD bdD bh0 bpp x mip fuel linOff).length
        = sumSsize W H D bw bhD bdD bh0 bpp mip fuel := by
  intro fuel
  induction fuel with
  | zero => intro mip linOff; rfl
  | succ fuel ih =>
    intro mip linOff
    simp only [swizzleMipsSpec, sumSsize]
    rw [List.length_append, swizzle_inner_length, List.length_replicate, ih]

/-! Induction lemmas for the inner mip loop. -/

theorem goMips_false_ok (W H D bw bhD bdD bh0 bpp : Nat) (x : List Nat) :
    ∀ fuel mip res linOff,
      linOff + sumDsize W H D bw bhD bdD bpp mip fuel ≤ x.length →
      goMips false W H D bw bhD bdD bh0 bpp x mip fuel res linOff
        = .ok (res ++ swizzleMipsSpec W H D bw bhD bdD bh0 bpp x mip fuel linOff,
            linOff + sumDsize W H D bw bhD bdD bpp mip fuel) := by
  intro fuel
  induction fuel with
  | zero =>
    intro mip res linOff hx
    simp [goMips, swizzleMipsSpec, sumDsize]
  | succ fuel ih =>
    intro mip res linOff hx
    have hsum : sumDsize W H D bw bhD bdD bpp mip (fuel + 1)
        = mipDsize W H D bw bhD bdD bpp mip
          + sumDsize W H D bw bhD bdD bpp (mip + 1) fuel := rfl
    have hone : linOff + deswizzled_mip_size (mip_dim W bw mip) (mip_dim H bhD mip)
        (mip_dim D bdD mip) bpp ≤ x.length := by
      have : mipDsize W H D bw bhD bdD bpp mip
          = deswizzled_mip_size (mip_dim W bw mip) (mip_dim H bhD mip)
            (mip_dim D bdD mip) bpp := rfl
      omega
    simp only [goMips, swizzle_mipmap_false_ok _ _ hone]
    rw [ih (mip + 1) _ _ (by rw [hsum] at hx; simp only [mipDsize] at *; omega)]
    simp only [swizzleMipsSpec, sumDsize, mipDsize, mipSsize, List.append_assoc]
    refine congrArg _ ?_
    refine Prod.ext ?_ ?_
    · rfl
    · show _ = linOff + (_ + _)
      omega

theorem goMips_false_err (W H D bw bhD bdD bh0 bpp : Nat) (x : List Nat) :
    ∀ fuel mip res linOff,
      linOff ≤ x.length →
      x.length < linOff + sumDsize W H D bw bhD bdD bpp mip fuel →
      goMips false W H D bw bhD bdD bh0 bpp x mip fuel res linOff
        = .error (.NotEnoughData 0 x.length) := by
  intro fuel
  induction fuel with
  | zero =>
    intro mip res linOff hle hlt
    have : sumDsize W H D bw bhD bdD bpp mip 0 = 0 := rfl
    omega
  | succ fuel ih =>
    intro mip res linOff hle hlt
    have hsum : sumDsize W H D bw bhD bdD bpp mip (fuel + 1)
        = mipDsize W H D bw bhD bdD bpp mip
          + sumDsize W H D bw bhD bdD bpp (mip + 1) fuel := rfl
    by_cases hc : x.length < linOff + mipDsize W H D bw bhD bdD bpp mip
    · have hc' : x.length < linOff + deswizzled_mip_size (mip_dim W bw mip)
          (mip_dim H bhD mip) (mip_dim D bdD mip) bpp := hc
      simp only [goMips, swizzle_mipmap_false_err _ _ hc']
    · push_neg at hc
      have hc' : linOff + deswizzled_mip_size (mip_dim W bw mip) (mip_dim H bhD mip)
          (mip_dim D bdD mip) bpp ≤ x.length := hc
      simp only [goMips, swizzle_mipmap_false_ok _ _ hc']
      have he : mipDsize W H D bw bhD bdD bpp mip
          = deswizzled_mip_size (mip_dim W bw mip) (mip_dim H bhD mip)
            (mip_dim D bdD mip) bpp := rfl
      exact ih (mip + 1) _ _ (by omega) (by omega)

/-- Round trip through one mip level, stated with the mip size functions
used by the walker. -/
theorem swizzle_inner_roundtrip_sizes {w h d bh bpp : Nat} (hbh : 0 < bh)
    (src rest : List Nat) (hsrc : deswizzled_mip_size w h d bpp ≤ src.length) :
    swizzle_inner true w h d
      (swizzle_inner false w h d src
        (List.replicate (swizzled_mip_size w h d bh bpp) 0) bh
        (block_depth d) bpp ++ rest)
      (List.replicate (deswizzled_mip_size w h d bpp) 0) bh (block_depth d) bpp
      = src.take (deswizzled_mip_size w h d bpp) :=
  swizzle_inner_roundtrip hbh (block_depth_pos d) src rest hsrc

theorem drop_append_of_length {a : List Nat} {n : Nat} (h : a.length = n)
    (b : List Nat) : (a ++ b).drop n = b := by
  subst h
  exact List.drop_left a b

theorem goMips_true_pair (W H D bw bhD bdD bh0 bpp : Nat) (x full : List Nat) :
    ∀ fuel mip dres swzOff linOff rest,
      full.drop swzOff
          = swizzleMipsSpec W H D bw bhD bdD bh0 bpp x mip fuel linOff ++ rest →
      swzOff ≤ full.length →
      linOff + sumDsize W H D bw bhD bdD bpp mip fuel ≤ x.length →
      goMips true W H D bw bhD bdD bh0 bpp full mip fuel dres swzOff
        = .ok (dres
            ++ (x.drop linOff).take (sumDsize W H D bw bhD bdD bpp mip fuel),
          swzOff + sumSsize W H D bw bhD bdD bh0 bpp mip fuel) := by
  intro fuel
  induction fuel with
  | zero =>
    intro mip dres swzOff linOff rest hfull hoff hx
    simp [goMips, sumDsize, sumSsize]
  | succ fuel ih =>
    intro mip dres swzOff linOff rest hfull hoff hx
    have hms : mipSsize W H D bw bhD bdD bh0 bpp mip
        = swizzled_mip_size (mip_dim W bw mip) (mip_dim H bhD mip)
          (mip_dim D bdD mip) (halveUntil (mip_dim H bhD mip) bh0) bpp := rfl
    have hmd : mipDsize W H D bw bhD bdD bpp mip
        = deswizzled_mip_size (mip_dim W bw mip) (mip_dim H bhD mip)
          (mip_dim D bdD mip) bpp := rfl
    have hfull' : full.drop swzOff
        = swizzle_inner false (mip_dim W bw mip) (mip_dim H bhD mip)
            (mip_dim D bdD mip) (x.drop linOff)
            (List.replicate (swizzled_mip_size (mip_dim W bw mip)
              (mip_dim H bhD mip) (mip_dim D bdD mip)
              (halveUntil (mip_dim H bhD mip) bh0) bpp) 0)
            (halveUntil (mip_dim H bhD mip) bh0)
            (block_depth (mip_dim D bdD mip)) bpp
          ++ (swizzleMipsSpec W H D bw bhD bdD bh0 bpp x (mip + 1) fuel
              (linOff + mipDsize W H D bw bhD bdD bpp mip) ++ rest) := by
      rw [hfull]
      simp only [swizzleMipsSpec, hms, List.append_assoc]
    have hseglen : (swizzle_inner false (mip_dim W bw mip) (mip_dim H bhD mip)
        (mip_dim D bdD mip) (x.drop linOff)
        (List.replicate (swizzled_mip_size (mip_dim W bw mip)
          (mip_dim H bhD mip) (mip_dim D bdD mip)
          (halveUntil (mip_dim H bhD mip) bh0) bpp) 0)
        (halveUntil (mip_dim H bhD mip) bh0)
        (block_depth (mip_dim D bdD mip)) bpp).length
        = swizzled_mip_size (mip_dim W bw mip) (mip_dim H bhD mip)
          (mip_dim D bdD mip) (halveUntil (mip_dim H bhD mip) bh0) bpp := by
      rw [swizzle_inner_length, List.length_replicate]
    have hdroplen := congrArg List.length hfull'
    rw [List.length_drop, List.length_append, hseglen] at hdroplen
    have hok : swzOff + swizzled_mip_size (mip_dim W bw mip) (mip_dim H bhD mip)
        (mip_dim D bdD mip) (halveUntil (mip_dim H bhD mip) bh0) bpp
        ≤ full.length := by omega
    have hsum : sumDsize W H D bw bhD bdD bpp mip (fuel + 1)
        = mipDsize W H D bw bhD bdD bpp mip
          + sumDsize W H D bw bhD bdD bpp (mip + 1) fuel := rfl
    have hsrc : deswizzled_mip_size (mip_dim W bw mip) (mip_dim H bhD mip)
        (mip_dim D bdD mip) bpp ≤ (x.drop linOff).length := by
      rw [List.length_drop]
      omega
    have hrt := swizzle_inner_roundtrip_sizes
      (halveUntil_pos bh0 (mip_dim H bhD mip)) (x.drop linOff)
      (swizzleMipsSpec W H D bw bhD bdD bh0 bpp x (mip + 1) fuel
        (linOff + mipDsize W H D bw bhD bdD bpp mip) ++ rest) hsrc
    simp only [goMips, swizzle_mipmap_true_ok _ _ hok, hfull', hrt]
    have hfull2 : full.drop (swzOff + swizzled_mip_size (mip_dim W bw mip)
        (mip_dim H bhD mip) (mip_dim D bdD mip)
        (halveUntil (mip_dim H bhD mip) bh0) bpp)
        = swizzleMipsSpec W H D bw bhD bdD bh0 bpp x (mip + 1) fuel
            (linOff + mipDsize W H D bw bhD bdD bpp mip) ++ rest := by
      rw [← List.drop_drop, hfull']
      exact drop_append_of_length hseglen _
    rw [ih (mip + 1) _ _ _ _ hfull2 (by omega) (by rw [hsum] at hx; omega)]
    refine congrArg _ (Prod.ext ?_ ?_)
    · show dres ++ _ ++ _ = dres ++ _
      rw [List.append_assoc]
      refine congrArg _ ?_
      have htake : (x.drop linOff).take (sumDsize W H D bw bhD bdD bpp mip (fuel + 1))
          = (x.drop linOff).take (mipDsize W H D bw bhD bdD bpp mip)
            ++ ((x.drop linOff).drop (mipDsize W H D bw bhD bdD bpp mip)).take
              (sumDsize W H D bw bhD bdD bpp (mip + 1) fuel) := by
        rw [← List.take_add]
        rfl
      rw [htake, List.drop_drop, hmd]
    · show _ + _ + _ = _ + _
      have : sumSsize W H D bw bhD bdD bh0 bpp mip (fuel + 1)
          = mipSsize W H D bw bhD bdD bh0 bpp mip
            + sumSsize W H D bw bhD bdD bh0 bpp (mip + 1) fuel := rfl
      rw [this, hms]
      omega

theorem goMips_true_ok (W H D bw bhD bdD bh0 bpp : Nat) (src : List Nat) :
    ∀ fuel mip res swzOff,
      swzOff + sumSsize W H D bw bhD bdD bh0 bpp mip fuel ≤ src.length →
      ∃ r1, goMips true W H D bw bhD bdD bh0 bpp src mip fuel res swzOff
          = .ok (r1, swzOff + sumSsize W H D bw bhD bdD bh0 bpp mip fuel)
        ∧ r1.length = res.length + sumDsize W H D bw bhD bdD bpp mip fuel := by
  intro fuel
  induction fuel with
  | zero =>
    intro mip res swzOff hx
    exact ⟨res, by simp [goMips, sumSsize], by simp [sumDsize]⟩
  | succ fuel ih =>
    intro mip res swzOff hx
    have hsum : sumSsize W H D bw bhD bdD bh0 bpp mip (fuel + 1)
        = mipSsize W H D bw bhD bdD bh0 bpp mip
          + sumSsize W H D bw bhD bdD bh0 bpp (mip + 1) fuel := rfl
    have hok : swzOff + swizzled_mip_size (mip_dim W bw mip) (mip_dim H bhD mip)
        (mip_dim D bdD mip) (halveUntil (mip_dim H bhD mip) bh0) bpp
        ≤ src.length := by
      have : mipSsize W H D bw bhD bdD bh0 bpp mip
          = swizzled_mip_size (mip_dim W bw mip) (mip_dim H bhD mip)
            (mip_dim D bdD mip) (halveUntil (mip_dim H bhD mip) bh0) bpp := rfl
      omega
    obtain ⟨r1, hgo, hlen⟩ := ih (mip + 1)
      (res ++ swizzle_inner true (mip_dim W bw mip) (mip_dim H bhD mip)
        (mip_dim D bdD mip) (src.drop swzOff)
        (List.replicate (deswizzled_mip_size (mip_dim W bw mip)
          (mip_dim H bhD mip) (mip_dim D bdD mip) bpp) 0)
        (halveUntil (mip_dim H bhD mip) bh0)
        (block_depth (mip_dim D bdD mip)) bpp)
      (swzOff + swizzled_mip_size (mip_dim W bw mip) (mip_dim H bhD mip)
        (mip_dim D bdD mip) (halveUntil (mip_dim H bhD mip) bh0) bpp)
      (by rw [hsum] at hx
          have : mipSsize W H D bw bhD bdD bh0 bpp mip
              = swizzled_mip_size (mip_dim W bw mip) (mip_dim H bhD mip)
                (mip_dim D bdD mip) (halveUntil (mip_dim H bhD mip) bh0) bpp := rfl
          omega)
    refine ⟨r1, ?_, ?_⟩
    · simp only [goMips, swizzle_mipmap_true_ok _ _ hok, hgo]
      refine congrArg _ (Prod.ext rfl ?_)
      show _ + _ + _ = _ + _
      have : mipSsize W H D bw bhD bdD bh0 bpp mip
          = swizzled_mip_size (mip_dim W bw mip) (mip_dim H bhD mip)
            (mip_dim D bdD mip) (halveUntil (mip_dim H bhD mip) bh0) bpp := rfl
      rw [hsum]
      omega
    · rw [hlen, List.length_append, swizzle_inner_length, List.length_replicate]
      have : sumDsize W H D bw bhD bdD bpp mip (fuel + 1)
          = mipDsize W H D bw bhD bdD bpp mip
            + sumDsize W H D bw bhD bdD bpp (mip + 1) fuel := rfl
      have hmd : mipDsize W H D bw bhD bdD bpp mip
          = deswizzled_mip_size (mip_dim W bw mip) (mip_dim H bhD mip)
            (mip_dim D bdD mip) bpp := rfl
      omega

theorem goMips_true_err (W H D bw bhD bdD bh0 bpp : Nat) (src : List Nat) :
    ∀ fuel mip res swzOff,
      0 < sumSsize W H D bw bhD bdD bh0 bpp mip fuel →
      src.length < swzOff + sumSsize W H D bw bhD bdD bh0 bpp mip fuel →
      goMips true W H D bw bhD bdD bh0 bpp src mip fuel res swzOff
        = .error (.NotEnoughData 0 src.length) := by
  intro fuel
  induction fuel with
  | zero =>
    intro mip res swzOff hpos hlt
    have : sumSsize W H D bw bhD bdD bh0 bpp mip 0 = 0 := rfl
    omega
  | succ fuel ih =>
    intro mip res swzOff hpos hlt
    have hsum : sumSsize W H D bw bhD bdD bh0 bpp mip (fuel + 1)
        = mipSsize W H D bw bhD bdD bh0 bpp mip
          + sumSsize W H D bw bhD bdD bh0 bpp (mip + 1) fuel := rfl
    have hms : mipSsize W H D bw bhD bdD bh0 bpp mip
        = swizzled_mip_size (mip_dim W bw mip) (mip_dim H bhD mip)
          (mip_dim D bdD mip) (halveUntil (mip_dim H bhD mip) bh0) bpp := rfl
    by_cases hc : src.length
        < swzOff + mipSsize W H D bw bhD bdD bh0 bpp mip
    · have hc' : src.length < swzOff + swizzled_mip_size (mip_dim W bw mip)
          (mip_dim H bhD mip) (mip_dim D bdD mip)
          (halveUntil (mip_dim H bhD mip) bh0) bpp := by omega
      simp only [goMips, swizzle_mipmap_true_err _ _ hc']
    · push_neg at hc
      have hc' : swzOff + swizzled_mip_size (mip_dim W bw mip) (mip_dim H bhD mip)
          (mip_dim D bdD mip) (halveUntil (mip_dim H bhD mip) bh0) bpp
          ≤ src.length := by omega
      simp only [goMips, swizzle_mipmap_true_ok _ _ hc']
      exact ih (mip + 1) _ _ (by omega) (by omega)

theorem goMips_false_len (W H D bw bhD bdD bh0 bpp : Nat) (src : List Nat) :
    ∀ fuel mip res off rs,
      goMips false W H D bw bhD bdD bh0 bpp src mip fuel res off = .ok rs →
      rs.1.length = res.length + sumSsize W H D bw bhD bdD bh0 bpp mip fuel
        ∧ rs.2 = off + sumDsize W H D bw bhD bdD bpp mip fuel := by
  intro fuel
  induction fuel with
  | zero =>
    intro mip res off rs hgo
    simp only [goMips] at hgo
    injection hgo with h'
    subst h'
    exact ⟨by simp [sumSsize], by simp [sumDsize]⟩
  | succ fuel ih =>
    intro mip res off rs hgo
    simp only [goMips] at hgo
    cases hsm : swizzle_mipmap false (mip_dim W bw mip) (mip_dim H bhD mip)
        (mip_dim D bdD mip) (halveUntil (mip_dim H bhD mip) bh0) bpp src res off with
    | error e => rw [hsm] at hgo; exact absurd hgo (by simp)
    | ok rs' =>
      rw [hsm] at hgo
      obtain ⟨hl1, hl2⟩ := swizzle_mipmap_ok_len hsm
      simp only [if_false, Bool.false_eq_true] at hl1 hl2
      obtain ⟨hl3, hl4⟩ := ih (mip + 1) _ _ _ hgo
      have hsumS : sumSsize W H D bw bhD bdD bh0 bpp mip (fuel + 1)
          = mipSsize W H D bw bhD bdD bh0 bpp mip
            + sumSsize W H D bw bhD bdD bh0 bpp (mip + 1) fuel := rfl
      have hsumD : sumDsize W H D bw bhD bdD bpp mip (fuel + 1)
          = mipDsize W H D bw bhD bdD bpp mip
            + sumDsize W H D bw bhD bdD bpp (mip + 1) fuel := rfl
      have hms : mipSsize W H D bw bhD bdD bh0 bpp mip
          = swizzled_mip_size (mip_dim W bw mip) (mip_dim H bhD mip)
            (mip_dim D bdD mip) (halveUntil (mip_dim H bhD mip) bh0) bpp := rfl
      have hmd : mipDsize W H D bw bhD bdD bpp mip
          = deswizzled_mip_size (mip_dim W bw mip) (mip_dim H bhD mip)
            (mip_dim D bdD mip) bpp := rfl
      constructor
      · rw [hl3, hl1, hsumS]
        omega
      · rw [hl4, hl2, hsumD]
        omega

theorem goMips_true_len (W H D bw bhD bdD bh0 bpp : Nat) (src : List Nat) :
    ∀ fuel mip res off rs,
      goMips true W H D bw bhD bdD bh0 bpp src mip fuel res off = .ok rs →
      rs.1.length = res.length + sumDsize W H D bw bhD bdD bpp mip fuel
        ∧ rs.2 = off + sumSsize W H D bw bhD bdD bh0 bpp mip fuel := by
  intro fuel
  induction fuel with
  | zero =>
    intro mip res off rs hgo
    simp only [goMips] at hgo
    injection hgo with h'
    subst h'
    exact ⟨by simp [sumDsize], by simp [sumSsize]⟩
  | succ fuel ih =>
    intro mip res off rs hgo
    simp only [goMips] at hgo
    cases hsm : swizzle_mipmap true (mip_dim W bw mip) (mip_dim H bhD mip)
        (mip_dim D bdD mip) (halveUntil (mip_dim H bhD mip) bh0) bpp src res off with
    | error e => rw [hsm] at hgo; exact absurd hgo (by simp)
    | ok rs' =>
      rw [hsm] at hgo
      obtain ⟨hl1, hl2⟩ := swizzle_mipmap_ok_len hsm
      simp only [if_true] at hl1 hl2
      obtain ⟨hl3, hl4⟩ := ih (mip + 1) _ _ _ hgo
      have hsumS : sumSsize W H D bw bhD bdD bh0 bpp mip (fuel + 1)
          = mipSsize W H D bw bhD bdD bh0 bpp mip
            + sumSsize W H D bw bhD bdD bh0 bpp (mip + 1) fuel := rfl
      have hsumD : sumDsize W H D bw bhD bdD bpp mip (fuel + 1)
          = mipDsize W H D bw bhD bdD bpp mip
            + sumDsize W H D bw bhD bdD bpp (mip + 1) fuel := rfl
      have hms : mipSsize W H D bw bhD bdD bh0 bpp mip
          = swizzled_mip_size (mip_dim W bw mip) (mip_dim H bhD mip)
            (mip_dim D bdD mip) (halveUntil (mip_dim H bhD mip) bh0) bpp := rfl
      have hmd : mipDsize W H D bw bhD bdD bpp mip
          = deswizzled_mip_size (mip_dim W bw mip) (mip_dim H bhD mip)
            (mip_dim D bdD mip) bpp := rfl
      constructor
      · rw [hl3, hl1, hsumD]
        omega
      · rw [hl4, hl2, hsumS]
        omega

theorem goMips_err_val (dsw : Bool) (W H D bw bhD bdD bh0 bpp : Nat)
    (src : List Nat) :
    ∀ fuel mip res off e,
      goMips dsw W H D bw bhD bdD bh0 bpp src mip fuel res off = .error e →
      e = .NotEnoughData 0 src.length := by
  intro fuel
  induction fuel with
  | zero =>
    intro mip res off e hgo
    exact absurd hgo (by simp [goMips])
  | succ fuel ih =>
    intro mip res off e hgo
    simp only [goMips] at hgo
    cases hsm : swizzle_mipmap dsw (mip_dim W bw mip) (mip_dim H bhD mip)
        (mip_dim D bdD mip) (halveUntil (mip_dim H bhD mip) bh0) bpp src res off with
    | error e' =>
      rw [hsm] at hgo
      injection hgo with h'
      rw [← h']
      exact swizzle_mipmap_err_val hsm
    | ok rs' =>
      rw [hsm] at hgo
      exact ih (mip + 1) _ _ _ hgo

/-! Layer level bookkeeping. -/

theorem align_to_layer_eq (height bhDim : Nat) (bh0 : BlockHeight) (n : Nat) :
    align_to_layer height bhDim bh0 n = align_up n (512 * bh0.toNat) := by
  unfold align_to_layer align_layer_size
  rw [Nat.mul_one]

/-- Expected swizzled content of a run of layers: for each layer the mip
segments, followed by the inter layer alignment padding when the total
array count exceeds one. -/
def swizzleLayersSpec (W H Dp bw bhD bdD : Nat) (bh0 : BlockHeight)
    (bpp mc ac : Nat) (x : List Nat) : Nat → Nat → List Nat
  | 0, _ => []
  | layers + 1, linOff =>
    swizzleMipsSpec W H Dp bw bhD bdD bh0.toNat bpp x 0 mc linOff
      ++ ((if 1 < ac then
            List.replicate (align_up (sumSsize W H Dp bw bhD bdD bh0.toNat bpp 0 mc)
                (512 * bh0.toNat)
              - sumSsize W H Dp bw bhD bdD bh0.toNat bpp 0 mc) 0
          else [])
        ++ swizzleLayersSpec W H Dp bw bhD bdD bh0 bpp mc ac x layers
            (linOff + sumDsize W H Dp bw bhD bdD bpp 0 mc))

theorem swizzleLayersSpec_length (W H Dp bw bhD bdD : Nat) (bh0 : BlockHeight)
    (bpp mc ac : Nat) (x : List Nat) :
    ∀ layers linOff,
      (swizzleLayersSpec W H Dp bw bhD bdD bh0 bpp mc ac x layers linOff).length
        = layers * (if 1 < ac then
            align_up (sumSsize W H Dp bw bhD bdD bh0.toNat bpp 0 mc)
              (512 * bh0.toNat)
          else sumSsize W H Dp bw bhD bdD bh0.toNat bpp 0 mc) := by
  intro layers
  induction layers with
  | zero => intro linOff; simp [swizzleLayersSpec]
  | succ layers ih =>
    intro linOff
    have hS : sumSsize W H Dp bw bhD bdD bh0.toNat bpp 0 mc
        ≤ align_up (sumSsize W H Dp bw bhD bdD bh0.toNat bpp 0 mc)
          (512 * bh0.toNat) :=
      le_align_up _ (by have := bh0.toNat_pos; positivity)
    simp only [swizzleLayersSpec, List.length_append,
      swizzleMipsSpec_length, ih]
    rw [Nat.succ_mul layers (if 1 < ac then
        align_up (sumSsize W H Dp bw bhD bdD bh0.toNat bpp 0 mc) (512 * bh0.toNat)
      else sumSsize W H Dp bw bhD bdD bh0.toNat bpp 0 mc)]
    split
    · rw [List.length_replicate]
      omega
    · simp only [List.length_nil]
      omega

theorem goLayers_false_ok (W H Dp bw bhD bdD : Nat) (bh0 : BlockHeight)
    (bpp mc ac : Nat) (x : List Nat) :
    ∀ layers res linOff,
      linOff + layers * sumDsize W H Dp bw bhD bdD bpp 0 mc ≤ x.length →
      (1 < ac → (512 * bh0.toNat) ∣ res.length) →
      goLayers false W H Dp bw bhD bdD bh0 bpp mc ac x layers res linOff
        = .ok (res
            ++ swizzleLayersSpec W H Dp bw bhD bdD bh0 bpp mc ac x layers linOff) := by
  intro layers
  induction layers with
  | zero =>
    intro res linOff hx hinv
    simp [goLayers, swizzleLayersSpec]
  | succ layers ih =>
    intro res linOff hx hinv
    have hQpos : 0 < 512 * bh0.toNat := by have := bh0.toNat_pos; positivity
    have hsucc : (layers + 1) * sumDsize W H Dp bw bhD bdD bpp 0 mc
        = layers * sumDsize W H Dp bw bhD bdD bpp 0 mc
          + sumDsize W H Dp bw bhD bdD bpp 0 mc := Nat.succ_mul _ _
    have hx1 : linOff + sumDsize W H Dp bw bhD bdD bpp 0 mc ≤ x.length := by omega
    have hS : sumSsize W H Dp bw bhD bdD bh0.toNat bpp 0 mc
        ≤ align_up (sumSsize W H Dp bw bhD bdD bh0.toNat bpp 0 mc)
          (512 * bh0.toNat) := le_align_up _ hQpos
    simp only [goLayers, goMips_false_ok W H Dp bw bhD bdD bh0.toNat bpp x mc 0
      res linOff hx1]
    by_cases hac : 1 < ac
    · simp only [if_pos hac, Bool.false_eq_true, if_false]
      have hreslen : (res ++ swizzleMipsSpec W H Dp bw bhD bdD bh0.toNat bpp x
          0 mc linOff).length
          = res.length + sumSsize W H Dp bw bhD bdD bh0.toNat bpp 0 mc := by
        rw [List.length_append, swizzleMipsSpec_length]
      have halign : align_to_layer H bhD bh0 (res ++ swizzleMipsSpec W H Dp bw
          bhD bdD bh0.toNat bpp x 0 mc linOff).length
          = res.length + align_up (sumSsize W H Dp bw bhD bdD bh0.toNat bpp 0 mc)
            (512 * bh0.toNat) := by
        rw [align_to_layer_eq, hreslen, align_up_add_of_dvd hQpos (hinv hac)]
      have hpad : align_to_layer H bhD bh0 (res ++ swizzleMipsSpec W H Dp bw
          bhD bdD bh0.toNat bpp x 0 mc linOff).length
          - (res ++ swizzleMipsSpec W H Dp bw bhD bdD bh0.toNat bpp x
            0 mc linOff).length
          = align_up (sumSsize W H Dp bw bhD bdD bh0.toNat bpp 0 mc)
              (512 * bh0.toNat)
            - sumSsize W H Dp bw bhD bdD bh0.toNat bpp 0 mc := by
        rw [halign, hreslen]
        omega
      rw [hpad]
      rw [ih _ _ (by omega) (fun _ => by
        rw [List.length_append, List.length_replicate, hreslen]
        have : res.length + sumSsize W H Dp bw bhD bdD bh0.toNat bpp 0 mc
            + (align_up (sumSsize W H Dp bw bhD bdD bh0.toNat bpp 0 mc)
                (512 * bh0.toNat)
              - sumSsize W H Dp bw bhD bdD bh0.toNat bpp 0 mc)
            = res.length + align_up (sumSsize W H Dp bw bhD bdD bh0.toNat bpp 0 mc)
              (512 * bh0.toNat) := by omega
        rw [this]
        exact Nat.dvd_add (hinv hac) (align_up_dvd _ _))]
      simp only [swizzleLayersSpec, if_pos hac, List.append_assoc]
    · simp only [if_neg hac]
      rw [ih _ _ (by omega) (fun hc => absurd hc hac)]
      simp only [swizzleLayersSpec, if_neg hac, List.append_assoc, List.nil_append]

theorem goLayers_false_err (W H Dp bw bhD bdD : Nat) (bh0 : BlockHeight)
    (bpp mc ac : Nat) (x : List Nat) :
    ∀ layers res linOff,
      linOff ≤ x.length →
      x.length < linOff + layers * sumDsize W H Dp bw bhD bdD bpp 0 mc →
      goLayers false W H Dp bw bhD bdD bh0 bpp mc ac x layers res linOff
        = .error (.NotEnoughData 0 x.length) := by
  intro layers
  induction layers with
  | zero =>
    intro res linOff hle hlt
    simp only [Nat.zero_mul] at hlt
    omega
  | succ layers ih =>
    intro res linOff hle hlt
    have hsucc : (layers + 1) * sumDsize W H Dp bw bhD bdD bpp 0 mc
        = layers * sumDsize W H Dp bw bhD bdD bpp 0 mc
          + sumDsize W H Dp bw bhD bdD bpp 0 mc := Nat.succ_mul _ _
    by_cases hc : x.length < linOff + sumDsize W H Dp bw bhD bdD bpp 0 mc
    · simp only [goLayers,
        goMips_false_err W H Dp bw bhD bdD bh0.toNat bpp x mc 0 res linOff hle hc]
    · push_neg at hc
      simp only [goLayers, goMips_false_ok W H Dp bw bhD bdD bh0.toNat bpp x mc 0
        res linOff hc]
      by_cases hac : 1 < ac
      · simp only [if_pos hac, Bool.false_eq_true, if_false]
        exact ih _ _ (by omega) (by omega)
      · simp only [if_neg hac]
        exact ih _ _ (by omega) (by omega)

theorem ite_true_bool {α : Sort _} (a b : α) :
    (if (true : Bool) = true then a else b) = a := rfl

theorem ite_false_bool {α : Sort _} (a b : α) :
    (if (false : Bool) = true then a else b) = b := rfl

theorem goLayers_true_pair (W H Dp bw bhD bdD : Nat) (bh0 : BlockHeight)
    (bpp mc ac : Nat) (x full : List Nat) :
    ∀ layers dres swzOff linOff rest,
      full.drop swzOff
          = swizzleLayersSpec W H Dp bw bhD bdD bh0 bpp mc ac x layers linOff
            ++ rest →
      swzOff ≤ full.length →
      (1 < ac → (512 * bh0.toNat) ∣ swzOff) →
      linOff + layers * sumDsize W H Dp bw bhD bdD bpp 0 mc ≤ x.length →
      goLayers true W H Dp bw bhD bdD bh0 bpp mc ac full layers dres swzOff
        = .ok (dres ++ (x.drop linOff).take
            (layers * sumDsize W H Dp bw bhD bdD bpp 0 mc)) := by
  intro layers
  induction layers with
  | zero =>
    intro dres swzOff linOff rest hfull hoff hq hx
    simp [goLayers]
  | succ layers ih =>
    intro dres swzOff linOff rest hfull hoff hq hx
    have hQpos : 0 < 512 * bh0.toNat := by have := bh0.toNat_pos; positivity
    have hsucc : (layers + 1) * sumDsize W H Dp bw bhD bdD bpp 0 mc
        = layers * sumDsize W H Dp bw bhD bdD bpp 0 mc
          + sumDsize W H Dp bw bhD bdD bpp 0 mc := Nat.succ_mul _ _
    have hx1 : linOff + sumDsize W H Dp bw bhD bdD bpp 0 mc ≤ x.length := by omega
    have hS : sumSsize W H Dp bw bhD bdD bh0.toNat bpp 0 mc
        ≤ align_up (sumSsize W H Dp bw bhD bdD bh0.toNat bpp 0 mc)
          (512 * bh0.toNat) := le_align_up _ hQpos
    have hfull1 : full.drop swzOff
        = swizzleMipsSpec W H Dp bw bhD bdD bh0.toNat bpp x 0 mc linOff
          ++ ((if 1 < ac then
              List.replicate (align_up (sumSsize W H Dp bw bhD bdD bh0.toNat bpp
                  0 mc) (512 * bh0.toNat)
                - sumSsize W H Dp bw bhD bdD bh0.toNat bpp 0 mc) 0
            else [])
          ++ (swizzleLayersSpec W H Dp bw bhD bdD bh0 bpp mc ac x layers
              (linOff + sumDsize W H Dp bw bhD bdD bpp 0 mc) ++ rest)) := by
      rw [hfull]
      simp only [swizzleLayersSpec, List.append_assoc]
    have hpair := goMips_true_pair W H Dp bw bhD bdD bh0.toNat bpp x full
      mc 0 dres swzOff linOff _ hfull1 hoff hx1
    have hmipslen : (swizzleMipsSpec W H Dp bw bhD bdD bh0.toNat bpp x
        0 mc linOff).length = sumSsize W H Dp bw bhD bdD bh0.toNat bpp 0 mc :=
      swizzleMipsSpec_length W H Dp bw bhD bdD bh0.toNat bpp x mc 0 linOff
    have hdrop1 : full.drop (swzOff + sumSsize W H Dp bw bhD bdD bh0.toNat bpp 0 mc)
        = (if 1 < ac then
            List.replicate (align_up (sumSsize W H Dp bw bhD bdD bh0.toNat bpp
                0 mc) (512 * bh0.toNat)
              - sumSsize W H Dp bw bhD bdD bh0.toNat bpp 0 mc) 0
          else [])
          ++ (swizzleLayersSpec W H Dp bw bhD bdD bh0 bpp mc ac x layers
              (linOff + sumDsize W H Dp bw bhD bdD bpp 0 mc) ++ rest) := by
      rw [← List.drop_drop, hfull1]
      exact drop_append_of_length hmipslen _
    have hlen1 := congrArg List.length hfull1
    rw [List.length_drop, List.length_append, hmipslen] at hlen1
    simp only [goLayers, hpair]
    by_cases hac : 1 < ac
    · rw [if_pos hac, if_pos trivial]
      rw [if_pos hac] at hdrop1
      have hpadlen := congrArg List.length hdrop1
      rw [List.length_drop, List.length_append, List.length_replicate] at hpadlen
      have halign : align_to_layer H bhD bh0
          (swzOff + sumSsize W H Dp bw bhD bdD bh0.toNat bpp 0 mc)
          = swzOff + align_up (sumSsize W H Dp bw bhD bdD bh0.toNat bpp 0 mc)
            (512 * bh0.toNat) := by
        rw [align_to_layer_eq, align_up_add_of_dvd hQpos (hq hac)]
      have hdrop2 : full.drop (swzOff + align_up (sumSsize W H Dp bw bhD bdD
          bh0.toNat bpp 0 mc) (512 * bh0.toNat))
          = swizzleLayersSpec W H Dp bw bhD bdD bh0 bpp mc ac x layers
              (linOff + sumDsize W H Dp bw bhD bdD bpp 0 mc) ++ rest := by
        have heq : swzOff + align_up (sumSsize W H Dp bw bhD bdD bh0.toNat bpp
            0 mc) (512 * bh0.toNat)
            = (swzOff + sumSsize W H Dp bw bhD bdD bh0.toNat bpp 0 mc)
              + (align_up (sumSsize W H Dp bw bhD bdD bh0.toNat bpp 0 mc)
                  (512 * bh0.toNat)
                - sumSsize W H Dp bw bhD bdD bh0.toNat bpp 0 mc) := by omega
        rw [heq, ← List.drop_drop, hdrop1]
        exact drop_append_of_length (List.length_replicate _ _) _
      rw [halign]
      rw [ih _ _ _ _ hdrop2 (by omega)
        (fun _ => Nat.dvd_add (hq hac) (align_up_dvd _ _)) (by omega)]
      rw [List.append_assoc,
        show List.drop (linOff + sumDsize W H Dp bw bhD bdD bpp 0 mc) x
          = List.drop (sumDsize W H Dp bw bhD bdD bpp 0 mc) (List.drop linOff x)
          from (List.drop_drop _ _ _).symm,
        ← List.take_add,
        show sumDsize W H Dp bw bhD bdD bpp 0 mc
          + layers * sumDsize W H Dp bw bhD bdD bpp 0 mc
          = (layers + 1) * sumDsize W H Dp bw bhD bdD bpp 0 mc from by omega]
    · rw [if_neg hac]
      rw [if_neg hac] at hdrop1
      rw [List.nil_append] at hdrop1
      rw [ih _ _ _ _ hdrop1 (by omega) (fun hc => absurd hc hac) (by omega)]
      rw [List.append_assoc,
        show List.drop (linOff + sumDsize W H Dp bw bhD bdD bpp 0 mc) x
          = List.drop (sumDsize W H Dp bw bhD bdD bpp 0 mc) (List.drop linOff x)
          from (List.drop_drop _ _ _).symm,
        ← List.take_add,
        show sumDsize W H Dp bw bhD bdD bpp 0 mc
          + layers * sumDsize W H Dp bw bhD bdD bpp 0 mc
          = (layers + 1) * sumDsize W H Dp bw bhD bdD bpp 0 mc from by omega]

theorem goLayers_true_ok (W H Dp bw bhD bdD : Nat) (bh0 : BlockHeight)
    (bpp mc ac : Nat) (src : List Nat) :
    ∀ layers res swzOff,
      (1 < ac → (512 * bh0.toNat) ∣ swzOff) →
      swzOff + layers * align_up (sumSsize W H Dp bw bhD bdD bh0.toNat bpp 0 mc)
          (512 * bh0.toNat)
        + sumSsize W H Dp bw bhD bdD bh0.toNat bpp 0 mc ≤ src.length →
      ∃ r, goLayers true W H Dp bw bhD bdD bh0 bpp mc ac src (layers + 1) res swzOff
          = .ok r
        ∧ r.length = res.length + (layers + 1) * sumDsize W H Dp bw bhD bdD bpp 0 mc := by
  intro layers
  induction layers with
  | zero =>
    intro res swzOff hq hlen
    obtain ⟨r1, hgo, hlen1⟩ := goMips_true_ok W H Dp bw bhD bdD bh0.toNat bpp src
      mc 0 res swzOff (by omega)
    by_cases hac : 1 < ac
    · exact ⟨r1, by simp only [goLayers, hgo, if_pos hac, if_pos trivial],
        by rw [hlen1]; omega⟩
    · exact ⟨r1, by simp only [goLayers, hgo, if_neg hac],
        by rw [hlen1]; omega⟩
  | succ layers ih =>
    intro res swzOff hq hlen
    have hQpos : 0 < 512 * bh0.toNat := by have := bh0.toNat_pos; positivity
    have hS : sumSsize W H Dp bw bhD bdD bh0.toNat bpp 0 mc
        ≤ align_up (sumSsize W H Dp bw bhD bdD bh0.toNat bpp 0 mc)
          (512 * bh0.toNat) := le_align_up _ hQpos
    have hsucc : (layers + 1) * align_up (sumSsize W H Dp bw bhD bdD bh0.toNat bpp
          0 mc) (512 * bh0.toNat)
        = layers * align_up (sumSsize W H Dp bw bhD bdD bh0.toNat bpp 0 mc)
            (512 * bh0.toNat)
          + align_up (sumSsize W H Dp bw bhD bdD bh0.toNat bpp 0 mc)
            (512 * bh0.toNat) := Nat.succ_mul _ _
    obtain ⟨r1, hgo, hlen1⟩ := goMips_true_ok W H Dp bw bhD bdD bh0.toNat bpp src
      mc 0 res swzOff (by omega)
    have hsuccD : (layers + 1 + 1) * sumDsize W H Dp bw bhD bdD bpp 0 mc
        = (layers + 1) * sumDsize W H Dp bw bhD bdD bpp 0 mc
          + sumDsize W H Dp bw bhD bdD bpp 0 mc := Nat.succ_mul _ _
    obtain ⟨k, hk⟩ : ∃ k, layers + 1 = k := ⟨_, rfl⟩
    by_cases hac : 1 < ac
    · have halign : align_to_layer H bhD bh0
          (swzOff + sumSsize W H Dp bw bhD bdD bh0.toNat bpp 0 mc)
          = swzOff + align_up (sumSsize W H Dp bw bhD bdD bh0.toNat bpp 0 mc)
            (512 * bh0.toNat) := by
        rw [align_to_layer_eq, align_up_add_of_dvd hQpos (hq hac)]
      obtain ⟨r, hgo2, hlen2⟩ := ih r1
        (swzOff + align_up (sumSsize W H Dp bw bhD bdD bh0.toNat bpp 0 mc)
          (512 * bh0.toNat))
        (fun _ => Nat.dvd_add (hq hac) (align_up_dvd _ _)) (by omega)
      rw [hk] at hgo2 hlen2
      refine ⟨r, ?_, ?_⟩
      · rw [hk]
        simp only [goLayers, hgo, if_pos hac, if_pos trivial, halign, hgo2]
      · rw [hlen2, hlen1, ← hk]
        have hD : (layers + 1) * sumDsize W H Dp bw bhD bdD bpp 0 mc
            + sumDsize W H Dp bw bhD bdD bpp 0 mc
            = (layers + 1 + 1) * sumDsize W H Dp bw bhD bdD bpp 0 mc := by
          rw [Nat.succ_mul (layers + 1) (sumDsize W H Dp bw bhD bdD bpp 0 mc)]
        omega
    · obtain ⟨r, hgo2, hlen2⟩ := ih r1
        (swzOff + sumSsize W H Dp bw bhD bdD bh0.toNat bpp 0 mc)
        (fun hc => absurd hc hac) (by omega)
      rw [hk] at hgo2 hlen2
      refine ⟨r, ?_, ?_⟩
      · rw [hk]
        simp only [goLayers, hgo, if_neg hac, hgo2]
      · rw [hlen2, hlen1, ← hk]
        have hD : (layers + 1) * sumDsize W H Dp bw bhD bdD bpp 0 mc
            + sumDsize W H Dp bw bhD bdD bpp 0 mc
            = (layers + 1 + 1) * sumDsize W H Dp bw bhD bdD bpp 0 mc := by
          rw [Nat.succ_mul (layers + 1) (sumDsize W H Dp bw bhD bdD bpp 0 mc)]
        omega

theorem goLayers_true_err (W H Dp bw bhD bdD : Nat) (bh0 : BlockHeight)
    (bpp mc ac : Nat) (src : List Nat) :
    ∀ layers res swzOff,
      (1 < ac → (512 * bh0.toNat) ∣ swzOff) →
      (layers = 0 ∨ 1 < ac) →
      0 < sumSsize W H Dp bw bhD bdD bh0.toNat bpp 0 mc →
      src.length < swzOff
        + layers * align_up (sumSsize W H Dp bw bhD bdD bh0.toNat bpp 0 mc)
          (512 * bh0.toNat)
        + sumSsize W H Dp bw bhD bdD bh0.toNat bpp 0 mc →
      goLayers true W H Dp bw bhD bdD bh0 bpp mc ac src (layers + 1) res swzOff
        = .error (.NotEnoughData 0 src.length) := by
  intro layers
  induction layers with
  | zero =>
    intro res swzOff hq hor hpos hlt
    simp only [goLayers, goMips_true_err W H Dp bw bhD bdD bh0.toNat bpp src
      mc 0 res swzOff hpos (by omega)]
  | succ layers ih =>
    intro res swzOff hq hor hpos hlt
    have hac : 1 < ac := by
      rcases hor with h0 | h1
      · omega
      · exact h1
    have hQpos : 0 < 512 * bh0.toNat := by have := bh0.toNat_pos; positivity
    have hS : sumSsize W H Dp bw bhD bdD bh0.toNat bpp 0 mc
        ≤ align_up (sumSsize W H Dp bw bhD bdD bh0.toNat bpp 0 mc)
          (512 * bh0.toNat) := le_align_up _ hQpos
    have hsucc : (layers + 1) * align_up (sumSsize W H Dp bw bhD bdD bh0.toNat bpp
          0 mc) (512 * bh0.toNat)
        = layers * align_up (sumSsize W H Dp bw bhD bdD bh0.toNat bpp 0 mc)
            (512 * bh0.toNat)
          + align_up (sumSsize W H Dp bw bhD bdD bh0.toNat bpp 0 mc)
            (512 * bh0.toNat) := Nat.succ_mul _ _
    by_cases hc : src.length
        < swzOff + sumSsize W H Dp bw bhD bdD bh0.toNat bpp 0 mc
    · simp only [goLayers, goMips_true_err W H Dp bw bhD bdD bh0.toNat bpp src
        mc 0 res swzOff hpos hc]
    · push_neg at hc
      obtain ⟨r1, hgo, hlen1⟩ := goMips_true_ok W H Dp bw bhD bdD bh0.toNat bpp src
        mc 0 res swzOff hc
      have halign : align_to_layer H bhD bh0
          (swzOff + sumSsize W H Dp bw bhD bdD bh0.toNat bpp 0 mc)
          = swzOff + align_up (sumSsize W H Dp bw bhD bdD bh0.toNat bpp 0 mc)
            (512 * bh0.toNat) := by
        rw [align_to_layer_eq, align_up_add_of_dvd hQpos (hq hac)]
      have hrec := ih r1
        (swzOff + align_up (sumSsize W H Dp bw bhD bdD bh0.toNat bpp 0 mc)
          (512 * bh0.toNat))
        (fun _ => Nat.dvd_add (hq hac) (align_up_dvd _ _))
        (Or.inr hac) hpos (by omega)
      obtain ⟨k, hk⟩ : ∃ k, layers + 1 = k := ⟨_, rfl⟩
      rw [hk] at hrec
      rw [hk]
      simp only [goLayers, hgo, if_pos hac, if_pos trivial, halign, hrec]

theorem goLayers_err_val (dsw : Bool) (W H Dp bw bhD bdD : Nat) (bh0 : BlockHeight)
    (bpp mc ac : Nat) (src : List Nat) :
    ∀ layers res off e,
      goLayers dsw W H Dp bw bhD bdD bh0 bpp mc ac src layers res off = .error e →
      e = .NotEnoughData 0 src.length := by
  intro layers
  induction layers with
  | zero =>
    intro res off e hgo
    exact absurd hgo (by simp [goLayers])
  | succ layers ih =>
    intro res off e hgo
    simp only [goLayers] at hgo
    cases hgm : goMips dsw W H Dp bw bhD bdD bh0.toNat bpp src 0 mc res off with
    | error e' =>
      rw [hgm] at hgo
      injection hgo with h'
      rw [← h']
      exact goMips_err_val dsw W H Dp bw bhD bdD bh0.toNat bpp src mc 0 res off
        e' hgm
    | ok rs =>
      rw [hgm] at hgo
      simp only at hgo
      by_cases hac : 1 < ac
      · rw [if_pos hac] at hgo
        split at hgo
        · exact ih _ _ _ hgo
        · exact ih _ _ _ hgo
      · rw [if_neg hac] at hgo
        exact ih _ _ _ hgo

theorem goLayers_false_len (W H Dp bw bhD bdD : Nat) (bh0 : BlockHeight)
    (bpp mc ac : Nat) (src : List Nat) :
    ∀ layers res linOff r,
      (1 < ac → (512 * bh0.toNat) ∣ res.length) →
      goLayers false W H Dp bw bhD bdD bh0 bpp mc ac src layers res linOff = .ok r →
      r.length = res.length + layers * (if 1 < ac then
          align_up (sumSsize W H Dp bw bhD bdD bh0.toNat bpp 0 mc)
            (512 * bh0.toNat)
        else sumSsize W H Dp bw bhD bdD bh0.toNat bpp 0 mc) := by
  intro layers
  induction layers with
  | zero =>
    intro res linOff r hinv hgo
    simp only [goLayers] at hgo
    injection hgo with h'
    subst h'
    simp
  | succ layers ih =>
    intro res linOff r hinv hgo
    have hQpos : 0 < 512 * bh0.toNat := by have := bh0.toNat_pos; positivity
    have hS : sumSsize W H Dp bw bhD bdD bh0.toNat bpp 0 mc
        ≤ align_up (sumSsize W H Dp bw bhD bdD bh0.toNat bpp 0 mc)
          (512 * bh0.toNat) := le_align_up _ hQpos
    simp only [goLayers] at hgo
    cases hgm : goMips false W H Dp bw bhD bdD bh0.toNat bpp src 0 mc res linOff with
    | error e' => rw [hgm] at hgo; exact absurd hgo (by simp)
    | ok rs =>
      rw [hgm] at hgo
      simp only at hgo
      obtain ⟨hl1, hl2⟩ := goMips_false_len W H Dp bw bhD bdD bh0.toNat bpp src
        mc 0 res linOff rs hgm
      by_cases hac : 1 < ac
      · rw [if_pos hac, ite_false_bool] at hgo
        have halign : align_to_layer H bhD bh0 rs.1.length
            = res.length + align_up (sumSsize W H Dp bw bhD bdD bh0.toNat bpp
              0 mc) (512 * bh0.toNat) := by
          rw [align_to_layer_eq, hl1, align_up_add_of_dvd hQpos (hinv hac)]
        have hlen' : (rs.1 ++ List.replicate (align_to_layer H bhD bh0 rs.1.length
            - rs.1.length) 0).length
            = res.length + align_up (sumSsize W H Dp bw bhD bdD bh0.toNat bpp
              0 mc) (512 * bh0.toNat) := by
          rw [List.length_append, List.length_replicate, halign, hl1]
          omega
        have := ih _ _ _ (fun _ => by
          rw [hlen']
          exact Nat.dvd_add (hinv hac) (align_up_dvd _ _)) hgo
        rw [this, hlen', if_pos hac]
        rw [Nat.succ_mul layers (align_up (sumSsize W H Dp bw bhD bdD
          bh0.toNat bpp 0 mc) (512 * bh0.toNat))]
        omega
      · rw [if_neg hac] at hgo
        have := ih _ _ _ (fun hc => absurd hc hac) hgo
        rw [this, hl1, if_neg hac]
        rw [Nat.succ_mul layers (sumSsize W H Dp bw bhD bdD bh0.toNat bpp 0 mc)]
        omega

theorem goLayers_true_len (W H Dp bw bhD bdD : Nat) (bh0 : BlockHeight)
    (bpp mc ac : Nat) (src : List Nat) :
    ∀ layers res off r,
      goLayers true W H Dp bw bhD bdD bh0 bpp mc ac src layers res off = .ok r →
      r.length = res.length + layers * sumDsize W H Dp bw bhD bdD bpp 0 mc := by
  intro layers
  induction layers with
  | zero =>
    intro res off r hgo
    simp only [goLayers] at hgo
    injection hgo with h'
    subst h'
    simp
  | succ layers ih =>
    intro res off r hgo
    simp only [goLayers] at hgo
    cases hgm : goMips true W H Dp bw bhD bdD bh0.toNat bpp src 0 mc res off with
    | error e' => rw [hgm] at hgo; exact absurd hgo (by simp)
    | ok rs =>
      rw [hgm] at hgo
      simp only at hgo
      obtain ⟨hl1, hl2⟩ := goMips_true_len W H Dp bw bhD bdD bh0.toNat bpp src
        mc 0 res off rs hgm
      have hrec : r.length = rs.1.length + layers * sumDsize W H Dp bw bhD bdD bpp
          0 mc := by
        by_cases hac : 1 < ac
        · rw [if_pos hac, if_pos trivial] at hgo
          exact ih _ _ _ hgo
        · rw [if_neg hac] at hgo
          exact ih _ _ _ hgo
      rw [hrec, hl1, Nat.succ_mul layers (sumDsize W H Dp bw bhD bdD bpp 0 mc)]
      omega

/-! Surface level size functions. -/

/-- Total tightly packed linear size of a surface: the sum over all layers
and mips of the linear mip sizes. -/
def surface_linear_size (width height depth : Nat) (block_dim : BlockDim)
    (bytes_per_pixel mipmap_count array_count : Nat) : Nat :=
  array_count * sumDsize width height depth block_dim.width block_dim.height
    block_dim.depth bytes_per_pixel 0 mipmap_count

/-- Swizzled size of one layer: the sum of the swizzled mip sizes, before
any layer alignment. -/
def surface_layer_size (width height depth : Nat) (block_dim : BlockDim)
    (blockHeightMip0 : Option BlockHeight) (bytes_per_pixel mipmap_count : Nat) :
    Nat :=
  sumSsize width height depth block_dim.width block_dim.height block_dim.depth
    (chooseBlockHeightMip0 depth height block_dim.height blockHeightMip0).toNat
    bytes_per_pixel 0 mipmap_count

/-- Layer alignment quantum: one block of GOBs under the mip 0 block
height. -/
def surface_layer_quantum (height depth : Nat) (block_dim : BlockDim)
    (blockHeightMip0 : Option BlockHeight) : Nat :=
  512 * (chooseBlockHeightMip0 depth height block_dim.height blockHeightMip0).toNat

/-- Length of a successful swizzle_surface result. -/
def surface_swizzled_size (width height depth : Nat) (block_dim : BlockDim)
    (blockHeightMip0 : Option BlockHeight)
    (bytes_per_pixel mipmap_count array_count : Nat) : Nat :=
  array_count * (if 1 < array_count then
      align_up (surface_layer_size width height depth block_dim blockHeightMip0
        bytes_per_pixel mipmap_count)
        (surface_layer_quantum height depth block_dim blockHeightMip0)
    else surface_layer_size width height depth block_dim blockHeightMip0
      bytes_per_pixel mipmap_count)

/-- Required swizzled source length for deswizzle_surface: all layers with
their trailing alignment except that the final alignment padding is not
read. -/
def surface_swizzled_required (width height depth : Nat) (block_dim : BlockDim)
    (blockHeightMip0 : Option BlockHeight)
    (bytes_per_pixel mipmap_count array_count : Nat) : Nat :=
  if array_count = 0 then 0
  else (array_count - 1) * align_up (surface_layer_size width height depth
        block_dim blockHeightMip0 bytes_per_pixel mipmap_count)
      (surface_layer_quantum height depth block_dim blockHeightMip0)
    + surface_layer_size width height depth block_dim blockHeightMip0
      bytes_per_pixel mipmap_count

theorem swizzle_surface_eq_goLayers (width height depth : Nat) (source : List Nat)
    (block_dim : BlockDim) (o : Option BlockHeight) (bpp mc ac : Nat) :
    swizzle_surface width height depth source block_dim o bpp mc ac
      = goLayers false width height depth block_dim.width block_dim.height
        block_dim.depth (chooseBlockHeightMip0 depth height block_dim.height o)
        bpp mc ac source ac [] 0 := rfl

theorem deswizzle_surface_eq_goLayers (width height depth : Nat) (source : List Nat)
    (block_dim : BlockDim) (o : Option BlockHeight) (bpp mc ac : Nat) :
    deswizzle_surface width height depth source block_dim o bpp mc ac
      = goLayers true width height depth block_dim.width block_dim.height
        block_dim.depth (chooseBlockHeightMip0 depth height block_dim.height o)
        bpp mc ac source ac [] 0 := rfl

/-- C1: for every descriptor satisfying the domain constraints and every
byte buffer whose length equals the total linear surface size,
deswizzle_surface applied to the result of swizzle_surface with the same
descriptor returns Ok of exactly the original buffer. -/
theorem c1_roundtrip (width height depth : Nat) (x : List Nat)
    (block_dim : BlockDim) (o : Option BlockHeight) (bpp mc ac : Nat)
    (hw : 1 ≤ width) (hh : 1 ≤ height) (hd : 1 ≤ depth)
    (hmc : 1 ≤ mc) (hac : 1 ≤ ac)
    (hbw : 1 ≤ block_dim.width) (hbh : 1 ≤ block_dim.height)
    (hbd : 1 ≤ block_dim.depth)
    (hx : x.length = surface_linear_size width height depth block_dim bpp mc ac) :
    ∃ s, swizzle_surface width height depth x block_dim o bpp mc ac = .ok s
      ∧ deswizzle_surface width height depth s block_dim o bpp mc ac = .ok x := by
  rw [surface_linear_size] at hx
  have hswz := goLayers_false_ok width height depth block_dim.width
    block_dim.height block_dim.depth
    (chooseBlockHeightMip0 depth height block_dim.height o) bpp mc ac x
    ac [] 0 (by omega) (fun _ => by simp)
  refine ⟨[] ++ swizzleLayersSpec width height depth block_dim.width
    block_dim.height block_dim.depth
    (chooseBlockHeightMip0 depth height block_dim.height o) bpp mc ac x ac 0,
    hswz, ?_⟩
  have hpair := goLayers_true_pair width height depth block_dim.width
    block_dim.height block_dim.depth
    (chooseBlockHeightMip0 depth height block_dim.height o) bpp mc ac x
    ([] ++ swizzleLayersSpec width height depth block_dim.width
      block_dim.height block_dim.depth
      (chooseBlockHeightMip0 depth height block_dim.height o) bpp mc ac x ac 0)
    ac [] 0 0 []
    (by simp) (Nat.zero_le _) (fun _ => Dvd.intro 0 rfl) (by omega)
  rw [deswizzle_surface_eq_goLayers, hpair]
  rw [List.nil_append, List.drop_zero, ← hx, List.take_length]

/-- Concrete instantiation of c1_roundtrip. -/
theorem c1_roundtrip_witness :
    ∃ s, swizzle_surface 1 1 1 [5] BlockDim.uncompressed none 1 1 1 = .ok s
      ∧ deswizzle_surface 1 1 1 s BlockDim.uncompressed none 1 1 1 = .ok [5] :=
  c1_roundtrip 1 1 1 [5] BlockDim.uncompressed none 1 1 1
    (by decide) (by decide) (by decide) (by decide) (by decide)
    (by decide) (by decide) (by decide) (by decide)

/-- C2: swizzle_surface returns Err NotEnoughData exactly when the source
is shorter than the cumulative linear input size over all layers and mips,
and then actual_size is the source length; deswizzle_surface fails exactly
when the source is shorter than the required swizzled size including the
inter layer alignment. -/
theorem c2_notEnoughData_iff (width height depth : Nat) (source : List Nat)
    (block_dim : BlockDim) (o : Option BlockHeight) (bpp mc ac : Nat) :
    ((∃ e, swizzle_surface width height depth source block_dim o bpp mc ac
          = .error e)
        ↔ source.length
          < surface_linear_size width height depth block_dim bpp mc ac)
      ∧ (∀ e, swizzle_surface width height depth source block_dim o bpp mc ac
          = .error e → e = .NotEnoughData 0 source.length)
      ∧ ((∃ e, deswizzle_surface width height depth source block_dim o bpp mc ac
          = .error e)
        ↔ source.length
          < surface_swizzled_required width height depth block_dim o bpp mc ac)
      ∧ (∀ e, deswizzle_surface width height depth source block_dim o bpp mc ac
          = .error e → e = .NotEnoughData 0 source.length) := by
  have hSdef : surface_layer_size width height depth block_dim o bpp mc
      = sumSsize width height depth block_dim.width block_dim.height
        block_dim.depth
        (chooseBlockHeightMip0 depth height block_dim.height o).toNat
        bpp 0 mc := rfl
  have hQdef : surface_layer_quantum height depth block_dim o
      = 512 * (chooseBlockHeightMip0 depth height block_dim.height o).toNat := rfl
  refine ⟨⟨?_, ?_⟩, ?_, ⟨?_, ?_⟩, ?_⟩
  · rintro ⟨e, he⟩
    by_contra hcon
    push_neg at hcon
    rw [surface_linear_size] at hcon
    have hok := goLayers_false_ok width height depth block_dim.width
      block_dim.height block_dim.depth
      (chooseBlockHeightMip0 depth height block_dim.height o) bpp mc ac source
      ac [] 0 (by omega) (fun _ => by simp)
    rw [swizzle_surface_eq_goLayers, hok] at he
    exact absurd he (by simp)
  · intro hlt
    rw [surface_linear_size] at hlt
    refine ⟨.NotEnoughData 0 source.length, ?_⟩
    rw [swizzle_surface_eq_goLayers]
    exact goLayers_false_err width height depth block_dim.width
      block_dim.height block_dim.depth
      (chooseBlockHeightMip0 depth height block_dim.height o) bpp mc ac source
      ac [] 0 (Nat.zero_le _) (by omega)
  · intro e he
    rw [swizzle_surface_eq_goLayers] at he
    exact goLayers_err_val false width height depth block_dim.width
      block_dim.height block_dim.depth
      (chooseBlockHeightMip0 depth height block_dim.height o) bpp mc ac source
      ac [] 0 e he
  · rintro ⟨e, he⟩
    by_contra hcon
    push_neg at hcon
    rw [deswizzle_surface_eq_goLayers] at he
    unfold surface_swizzled_required at hcon
    cases ac with
    | zero => exact absurd he (by simp [goLayers])
    | succ n =>
      rw [if_neg (by omega)] at hcon
      rw [hSdef, hQdef] at hcon
      obtain ⟨r, hok, _⟩ := goLayers_true_ok width height depth block_dim.width
        block_dim.height block_dim.depth
        (chooseBlockHeightMip0 depth height block_dim.height o) bpp mc (n + 1)
        source n [] 0 (fun _ => Dvd.intro 0 rfl)
        (by simp only [Nat.add_sub_cancel] at hcon; omega)
      rw [hok] at he
      exact absurd he (by simp)
  · intro hlt
    unfold surface_swizzled_required at hlt
    cases ac with
    | zero =>
      rw [if_pos rfl] at hlt
      omega
    | succ n =>
      rw [if_neg (by omega)] at hlt
      rw [hSdef, hQdef] at hlt
      simp only [Nat.add_sub_cancel] at hlt
      by_cases hS : 0 < sumSsize width height depth block_dim.width
          block_dim.height block_dim.depth
          (chooseBlockHeightMip0 depth height block_dim.height o).toNat bpp 0 mc
      · refine ⟨.NotEnoughData 0 source.length, ?_⟩
        rw [deswizzle_surface_eq_goLayers]
        exact goLayers_true_err width height depth block_dim.width
          block_dim.height block_dim.depth
          (chooseBlockHeightMip0 depth height block_dim.height o) bpp mc (n + 1)
          source n [] 0 (fun _ => Dvd.intro 0 rfl)
          (by rcases Nat.eq_zero_or_pos n with h0 | h0
              · exact Or.inl h0
              · exact Or.inr (by omega)) hS (by omega)
      · push_neg at hS
        exfalso
        have hS0 : sumSsize width height depth block_dim.width block_dim.height
            block_dim.depth
            (chooseBlockHeightMip0 depth height block_dim.height o).toNat
            bpp 0 mc = 0 := by omega
        rw [hS0, align_up_zero] at hlt
        omega
  · intro e he
    rw [deswizzle_surface_eq_goLayers] at he
    exact goLayers_err_val true width height depth block_dim.width
      block_dim.height block_dim.depth
      (chooseBlockHeightMip0 depth height block_dim.height o) bpp mc ac source
      ac [] 0 e he

/-- Concrete instantiation of c2_notEnoughData_iff: an empty source for a
2 by 2 surface produces an error. -/
theorem c2_notEnoughData_iff_witness :
    ∃ e, swizzle_surface 2 2 1 [] BlockDim.uncompressed none 1 1 1
      = .error e :=
  (c2_notEnoughData_iff 2 2 1 [] BlockDim.uncompressed none 1 1 1).1.mpr
    (by decide)

/-- C3: for depth greater than one the mip 0 block height used by both
entry points is one, regardless of the caller override, and the inference
from the height happens only when depth is one. -/
theorem c3_depth_forces_block_height_one (width height depth : Nat)
    (source : List Nat) (block_dim : BlockDim) (o : Option BlockHeight)
    (bpp mc ac : Nat) (hdepth : 1 < depth) :
    chooseBlockHeightMip0 depth height block_dim.height o = .one
      ∧ swizzle_surface width height depth source block_dim o bpp mc ac
        = swizzle_surface width height depth source block_dim none bpp mc ac
      ∧ deswizzle_surface width height depth source block_dim o bpp mc ac
        = deswizzle_surface width height depth source block_dim none bpp mc ac := by
  have h1 : chooseBlockHeightMip0 depth height block_dim.height o = .one := by
    unfold chooseBlockHeightMip0
    rw [if_neg (by omega)]
  have h2 : chooseBlockHeightMip0 depth height block_dim.height none = .one := by
    unfold chooseBlockHeightMip0
    rw [if_neg (by omega)]
  refine ⟨h1, ?_, ?_⟩
  · rw [swizzle_surface_eq_goLayers, swizzle_surface_eq_goLayers, h1, h2]
  · rw [deswizzle_surface_eq_goLayers, deswizzle_surface_eq_goLayers, h1, h2]

/-- Concrete instantiation of c3_depth_forces_block_height_one. -/
theorem c3_depth_forces_block_height_one_witness :
    chooseBlockHeightMip0 16 128 1 (some .sixteen) = .one
      ∧ swizzle_surface 16 128 16 (List.replicate 32768 0) BlockDim.uncompressed
          (some .sixteen) 1 1 1
        = swizzle_surface 16 128 16 (List.replicate 32768 0) BlockDim.uncompressed
          none 1 1 1
      ∧ deswizzle_surface 16 128 16 (List.replicate 32768 0) BlockDim.uncompressed
          (some .sixteen) 1 1 1
        = deswizzle_surface 16 128 16 (List.replicate 32768 0) BlockDim.uncompressed
          none 1 1 1 :=
  c3_depth_forces_block_height_one 16 128 16 (List.replicate 32768 0)
    BlockDim.uncompressed (some .sixteen) 1 1 1 (by decide)

/-- C4: for two sources on which swizzle_surface succeeds under the same
descriptor, the returned buffers have the same length, a function of the
descriptor alone. -/
theorem c4_length_invariance (width height depth : Nat) (x y : List Nat)
    (block_dim : BlockDim) (o : Option BlockHeight) (bpp mc ac : Nat)
    (rx ry : List Nat)
    (hx : swizzle_surface width height depth x block_dim o bpp mc ac = .ok rx)
    (hy : swizzle_surface width height depth y block_dim o bpp mc ac = .ok ry) :
    rx.length = ry.length
      ∧ rx.length
        = surface_swizzled_size width height depth block_dim o bpp mc ac := by
  rw [swizzle_surface_eq_goLayers] at hx hy
  have h1 := goLayers_false_len width height depth block_dim.width
    block_dim.height block_dim.depth
    (chooseBlockHeightMip0 depth height block_dim.height o) bpp mc ac x
    ac [] 0 rx (fun _ => by simp) hx
  have h2 := goLayers_false_len width height depth block_dim.width
    block_dim.height block_dim.depth
    (chooseBlockHeightMip0 depth height block_dim.height o) bpp mc ac y
    ac [] 0 ry (fun _ => by simp) hy
  constructor
  · rw [h1, h2]
  · rw [h1]
    simp only [surface_swizzled_size, surface_layer_size, surface_layer_quantum,
      List.length_nil, Nat.zero_add]

/-- Concrete instantiation of c4_length_invariance on a 4 by 1 surface with
an all zero and an all one source. -/
theorem c4_length_invariance_witness :
    (List.replicate 512 0).length
        = (List.replicate 4 1 ++ List.replicate 508 0).length
      ∧ (List.replicate 512 0).length
        = surface_swizzled_size 4 1 1 BlockDim.uncompressed none 1 1 1 :=
  c4_length_invariance 4 1 1 (List.replicate 4 0) (List.replicate 4 1)
    BlockDim.uncompressed none 1 1 1 (List.replicate 512 0)
    (List.replicate 4 1 ++ List.replicate 508 0) (by rfl) (by rfl)

/-- C5: a successful deswizzle_surface result is tightly packed: its length
is the array count times the sum of the linear mip sizes, with no padding
anywhere. -/
theorem c5_deswizzle_tightly_packed (width height depth : Nat)
    (source : List Nat) (block_dim : BlockDim) (o : Option BlockHeight)
    (bpp mc ac : Nat) (r : List Nat)
    (h : deswizzle_surface width height depth source block_dim o bpp mc ac
      = .ok r) :
    r.length = surface_linear_size width height depth block_dim bpp mc ac := by
  rw [deswizzle_surface_eq_goLayers] at h
  have hl := goLayers_true_len width height depth block_dim.width
    block_dim.height block_dim.depth
    (chooseBlockHeightMip0 depth height block_dim.height o) bpp mc ac source
    ac [] 0 r h
  rw [hl]
  simp only [surface_linear_size, List.length_nil, Nat.zero_add]

/-- Concrete instantiation of c5_deswizzle_tightly_packed. -/
theorem c5_deswizzle_tightly_packed_witness :
    ([0] : List Nat).length = surface_linear_size 1 1 1 BlockDim.uncompressed
      1 1 1 :=
  c5_deswizzle_tightly_packed 1 1 1 (List.replicate 512 0) BlockDim.uncompressed
    none 1 1 1 [0] (by rfl)

/-- C6 counterexample: an 8 by 9 surface with two mips and two layers has a
per layer swizzled size of 1536 bytes and an alignment quantum of 1024, so
each layer is padded to 2048 bytes.  The code pads after the final layer
too: the result is 4096 bytes, not the 2048 + 1536 = 3584 bytes the claim
predicts when no padding follows the final layer. -/
theorem c6_counterexample :
    (swizzle_surface 8 9 1 (List.replicate 176 0) BlockDim.uncompressed none
        1 2 2).map List.length = Except.ok 4096
      ∧ (swizzle_surface 8 9 1 (List.replicate 176 0) BlockDim.uncompressed none
        1 2 2).map List.length ≠ Except.ok 3584 := by
  have hok := goLayers_false_ok 8 9 1 1 1 1 (chooseBlockHeightMip0 1 9 1 none)
    1 2 2 (List.replicate 176 0) 2 [] 0 (by decide) (fun _ => by simp)
  have hlen := goLayers_false_len 8 9 1 1 1 1 (chooseBlockHeightMip0 1 9 1 none)
    1 2 2 (List.replicate 176 0) 2 [] 0 _ (fun _ => by simp) hok
  have h1 : (swizzle_surface 8 9 1 (List.replicate 176 0) BlockDim.uncompressed
      none 1 2 2).map List.length = Except.ok 4096 := by
    rw [swizzle_surface_eq_goLayers]
    simp only [BlockDim.uncompressed]
    rw [hok]
    simp only [Except.map]
    rw [hlen]
    have : ([] : List Nat).length + 2 * (if 1 < 2 then
        align_up (sumSsize 8 9 1 1 1 1 (chooseBlockHeightMip0 1 9 1 none).toNat
          1 0 2) (512 * (chooseBlockHeightMip0 1 9 1 none).toNat)
      else sumSsize 8 9 1 1 1 1 (chooseBlockHeightMip0 1 9 1 none).toNat
        1 0 2) = 4096 := by decide
    rw [this]
  refine ⟨h1, ?_⟩
  rw [h1]
  intro hcon
  injection hcon with h2
  exact absurd h2 (by decide)

/-- Deswizzle succeeds whenever the source holds the required swizzled
size, which omits the alignment padding of the final layer. -/
theorem deswizzle_surface_ok_of_required_le (width height depth : Nat)
    (src : List Nat) (block_dim : BlockDim) (o : Option BlockHeight)
    (bpp mc ac : Nat)
    (hreq : surface_swizzled_required width height depth block_dim o bpp mc ac
      ≤ src.length) :
    ∃ r, deswizzle_surface width height depth src block_dim o bpp mc ac
      = .ok r := by
  unfold surface_swizzled_required at hreq
  cases ac with
  | zero => exact ⟨[], by rw [deswizzle_surface_eq_goLayers]; rfl⟩
  | succ n =>
    rw [if_neg (by omega)] at hreq
    simp only [Nat.add_sub_cancel, surface_layer_size, surface_layer_quantum]
      at hreq
    obtain ⟨r, hok, _⟩ := goLayers_true_ok width height depth block_dim.width
      block_dim.height block_dim.depth
      (chooseBlockHeightMip0 depth height block_dim.height o) bpp mc (n + 1)
      src n [] 0 (fun _ => Dvd.intro 0 rfl) (by omega)
    exact ⟨r, by rw [deswizzle_surface_eq_goLayers]; exact hok⟩

/-- C6 amended: when array_count exceeds one the layer alignment is applied
after every layer, including the final one, so the swizzled length is the
array count times the aligned layer size; when array_count is at most one
no layer alignment is applied.  In deswizzle mode the alignment advances
only the source offset, so the final layer's alignment padding need not be
present: a source of the required swizzled size, which stops after the
final layer's data, already deswizzles successfully. -/
theorem c6_amended_layer_alignment (width height depth : Nat) (source : List Nat)
    (block_dim : BlockDim) (o : Option BlockHeight) (bpp mc ac : Nat)
    (r : List Nat)
    (h : swizzle_surface width height depth source block_dim o bpp mc ac
      = .ok r) :
    (1 < ac → r.length
        = ac * align_up (surface_layer_size width height depth block_dim o bpp mc)
          (surface_layer_quantum height depth block_dim o))
      ∧ (ac ≤ 1 → r.length
        = ac * surface_layer_size width height depth block_dim o bpp mc)
      ∧ (∀ src2 : List Nat,
        surface_swizzled_required width height depth block_dim o bpp mc ac
          ≤ src2.length →
        ∃ r2, deswizzle_surface width height depth src2 block_dim o bpp mc ac
          = .ok r2) := by
  rw [swizzle_surface_eq_goLayers] at h
  have hl := goLayers_false_len width height depth block_dim.width
    block_dim.height block_dim.depth
    (chooseBlockHeightMip0 depth height block_dim.height o) bpp mc ac source
    ac [] 0 r (fun _ => by simp) h
  refine ⟨?_, ?_, ?_⟩
  · intro hac
    rw [hl, if_pos hac]
    simp only [surface_layer_size, surface_layer_quantum, List.length_nil,
      Nat.zero_add]
  · intro hac
    rw [hl, if_neg (by omega)]
    simp only [surface_layer_size, List.length_nil, Nat.zero_add]
  · intro src2 hreq
    exact deswizzle_surface_ok_of_required_le width height depth src2 block_dim
      o bpp mc ac hreq

/-- Concrete instantiation of c6_amended_layer_alignment: the two layer
surface of the counterexample has length 2 times the aligned layer size,
4096 bytes, while a 3584 byte source without the final 512 byte alignment
padding still deswizzles. -/
theorem c6_amended_layer_alignment_witness :
    (([] ++ swizzleLayersSpec 8 9 1 1 1 1 (chooseBlockHeightMip0 1 9 1 none)
        1 2 2 (List.replicate 176 0) 2 0).length
      = 2 * align_up (surface_layer_size 8 9 1 BlockDim.uncompressed none 1 2)
        (surface_layer_quantum 9 1 BlockDim.uncompressed none))
      ∧ ∃ r2, deswizzle_surface 8 9 1 (List.replicate 3584 0)
        BlockDim.uncompressed none 1 2 2 = .ok r2 := by
  have happ := c6_amended_layer_alignment 8 9 1 (List.replicate 176 0)
    BlockDim.uncompressed none 1 2 2 _
    (goLayers_false_ok 8 9 1 1 1 1 (chooseBlockHeightMip0 1 9 1 none)
      1 2 2 (List.replicate 176 0) 2 [] 0 (by decide) (fun _ => by simp))
  exact ⟨happ.1 (by decide), happ.2.2 (List.replicate 3584 0)
    (by rw [List.length_replicate]; decide)⟩

/-- C7 counterexample: calling swizzle_surface with the descriptor of the
claim, mipmap_count 6 and array_count 1, succeeds but returns 3584 bytes,
not 6144.  The 6144 byte figure of the scenario table belongs to the call
with mipmap_count 1 and array_count 6: the table columns follow the Rust
test helper whose layer and mip arguments feed the opposite parameters. -/
theorem c7_counterexample :
    (swizzle_surface 16 16 1 (List.replicate 6144 0) BlockDim.uncompressed none
        4 6 1).map List.length = Except.ok 3584
      ∧ (swizzle_surface 16 16 1 (List.replicate 6144 0) BlockDim.uncompressed
        none 4 6 1).map List.length ≠ Except.ok 6144 := by
  have hok := goLayers_false_ok 16 16 1 1 1 1 (chooseBlockHeightMip0 1 16 1 none)
    4 6 1 (List.replicate 6144 0) 1 [] 0
    (by rw [List.length_replicate]; decide) (fun _ => by simp)
  have hlen := goLayers_false_len 16 16 1 1 1 1 (chooseBlockHeightMip0 1 16 1 none)
    4 6 1 (List.replicate 6144 0) 1 [] 0 _ (fun _ => by simp) hok
  have h1 : (swizzle_surface 16 16 1 (List.replicate 6144 0) BlockDim.uncompressed
      none 4 6 1).map List.length = Except.ok 3584 := by
    rw [swizzle_surface_eq_goLayers]
    simp only [BlockDim.uncompressed]
    rw [hok]
    simp only [Except.map]
    rw [hlen]
    have : ([] : List Nat).length + 1 * (if 1 < 1 then
        align_up (sumSsize 16 16 1 1 1 1 (chooseBlockHeightMip0 1 16 1 none).toNat
          4 0 6) (512 * (chooseBlockHeightMip0 1 16 1 none).toNat)
      else sumSsize 16 16 1 1 1 1 (chooseBlockHeightMip0 1 16 1 none).toNat
        4 0 6) = 3584 := by decide
    rw [this]
  refine ⟨h1, ?_⟩
  rw [h1]
  intro hcon
  injection hcon with h2
  exact absurd h2 (by decide)

/-- C7 amended: with the parameter roles the shipped test actually
exercises, mipmap_count 1 and array_count 6, the 16 by 16 call on a 6144
byte source succeeds and returns exactly 6144 bytes. -/
theorem c7_amended_swizzle_length :
    (swizzle_surface 16 16 1 (List.replicate 6144 0) BlockDim.uncompressed none
      4 1 6).map List.length = Except.ok 6144 := by
  have hok := goLayers_false_ok 16 16 1 1 1 1 (chooseBlockHeightMip0 1 16 1 none)
    4 1 6 (List.replicate 6144 0) 6 [] 0
    (by rw [List.length_replicate]; decide) (fun _ => by simp)
  have hlen := goLayers_false_len 16 16 1 1 1 1 (chooseBlockHeightMip0 1 16 1 none)
    4 1 6 (List.replicate 6144 0) 6 [] 0 _ (fun _ => by simp) hok
  rw [swizzle_surface_eq_goLayers]
  simp only [BlockDim.uncompressed]
  rw [hok]
  simp only [Except.map]
  rw [hlen]
  have : ([] : List Nat).length + 6 * (if 1 < 6 then
      align_up (sumSsize 16 16 1 1 1 1 (chooseBlockHeightMip0 1 16 1 none).toNat
        4 0 1) (512 * (chooseBlockHeightMip0 1 16 1 none).toNat)
    else sumSsize 16 16 1 1 1 1 (chooseBlockHeightMip0 1 16 1 none).toNat
      4 0 1) = 6144 := by decide
  rw [this]

/-- C8: the code populates expected_size with the placeholder 0, not with
the true required size.  A 4 by 4 surface with an empty source needs 16
bytes, yet the error carries expected_size 0. -/
theorem c8_expected_size_is_placeholder :
    swizzle_surface 4 4 1 [] BlockDim.uncompressed none 1 1 1
        = .error (.NotEnoughData 0 0)
      ∧ surface_linear_size 4 4 1 BlockDim.uncompressed 1 1 1 = 16 := by
  exact ⟨by rfl, by decide⟩

/-- C9: the mip extents used by the surface walker are the base dimension
shifted right by the mip index, divided rounding up by the block dimension
axis, floored at one; hence every mip extent is at least one. -/
theorem c9_mip_dim_floor_one (dim blockDimAxis mip : Nat) :
    mip_dim dim blockDimAxis mip
        = max 1 (div_round_up (dim >>> mip) blockDimAxis)
      ∧ 1 ≤ mip_dim dim blockDimAxis mip := by
  unfold mip_dim
  exact ⟨Nat.max_comm _ _, by omega⟩

/-- C10: the only error value swizzle_surface and deswizzle_surface can
return is NotEnoughData; InvalidBlockHeight is unreachable through these
entry points. -/
theorem c10_only_notEnoughData (width height depth : Nat) (source : List Nat)
    (block_dim : BlockDim) (o : Option BlockHeight) (bpp mc ac : Nat)
    (e : SwizzleError)
    (h : swizzle_surface width height depth source block_dim o bpp mc ac
        = .error e
      ∨ deswizzle_surface width height depth source block_dim o bpp mc ac
        = .error e) :
    (∃ expected actual, e = .NotEnoughData expected actual)
      ∧ ∀ v, e ≠ .InvalidBlockHeight v := by
  have he : e = .NotEnoughData 0 source.length := by
    rcases h with h | h
    · rw [swizzle_surface_eq_goLayers] at h
      exact goLayers_err_val false width height depth block_dim.width
        block_dim.height block_dim.depth
        (chooseBlockHeightMip0 depth height block_dim.height o) bpp mc ac source
        ac [] 0 e h
    · rw [deswizzle_surface_eq_goLayers] at h
      exact goLayers_err_val true width height depth block_dim.width
        block_dim.height block_dim.depth
        (chooseBlockHeightMip0 depth height block_dim.height o) bpp mc ac source
        ac [] 0 e h
  subst he
  exact ⟨⟨0, source.length, rfl⟩, fun v hv => SwizzleError.noConfusion hv⟩

/-- Concrete instantiation of c10_only_notEnoughData. -/
theorem c10_only_notEnoughData_witness :
    (∃ expected actual,
        SwizzleError.NotEnoughData 0 0 = .NotEnoughData expected actual)
      ∧ ∀ v, SwizzleError.NotEnoughData 0 0 ≠ .InvalidBlockHeight v :=
  c10_only_notEnoughData 8 8 1 [] BlockDim.uncompressed none 1 1 1
    (.NotEnoughData 0 0) (Or.inl (by rfl))

end TegraSwizzle
